import Mathlib

/-!
# RCU demo driver (`cru_kernel.c`): a shallow embedding

The driver keeps one global kernel list `rcu_demo_list` of `struct rcu_node`.
A writer thread publishes a fresh node per cycle and retires the node two ids
behind, a reader thread walks the list, and module unload frees what is left.

The embedding is pointer level: memory holds the list head and the slab of
live nodes, every `struct list_head` access goes through `Mem.load` /
`Mem.store`, and an access to freed or poisoned memory is a fault (`none`).
Loops that chase pointers take fuel; running out of fuel is also `none`.
Every kernel call the code makes is appended to a trace, in program order.
`msleep` and `pr_info` have no effect on the list and are left out.

The kernel list primitives and iteration macros (`list_add_rcu`,
`list_del_rcu`, `list_for_each_entry_rcu`, `list_for_each_entry_safe`) come
from `<linux/list.h>` and `<linux/rculist.h>`; they are written out here as
those headers define them, without the `CONFIG_DEBUG_LIST` sanity checks.
`kmalloc` hands out a fresh object on every success: object `k` is the one
returned by the `k`-th successful call, so a node keeps its identity after it
is freed.
-/

namespace RcuDemo

/-! ## Data model -/

/-- Address of a `struct list_head`: the global `rcu_demo_list`, the `list`
member of the node returned by the `k`-th successful `kmalloc`, or the
kernel's `LIST_POISON2`. -/
inductive Ptr where
  | head : Ptr
  | node (k : Nat) : Ptr
  | poison2 : Ptr
  deriving DecidableEq, Repr

/-- Kernel `struct list_head`. -/
structure list_head where
  next : Ptr
  prev : Ptr
  deriving DecidableEq, Repr

/-- The driver's `struct rcu_node { int id; char name[32]; struct list_head list; }`. -/
structure rcu_node where
  id : Int
  name : String
  list : list_head
  deriving DecidableEq, Repr

/-- Memory: the static `rcu_demo_list` and the slab objects that are
currently allocated (`none` is memory that was never allocated or was freed). -/
structure Mem where
  rcu_demo_list : list_head
  slab : Nat → Option rcu_node

/-- Calls made by the driver, in program order. -/
inductive Event where
  | kmalloc (r : Option Nat) : Event
  | set_id (k : Nat) (v : Int) : Event
  | set_name (k : Nat) : Event
  | list_add_rcu (k : Nat) : Event
  | rcu_read_lock : Event
  | rcu_read_unlock : Event
  | list_del_rcu (k : Nat) : Event
  | synchronize_rcu : Event
  | kfree (k : Nat) : Event
  | kthread_stop_reader : Event
  | kthread_stop_writer : Event
  deriving DecidableEq, Repr

/-- Kernel state seen by the driver: memory, the serial number of the next
allocation, and the trace of calls so far. -/
structure World where
  mem : Mem
  brk : Nat
  trace : List Event

/-- Two's complement wrap of a C `int` (the kernel is built with
`-fno-strict-overflow`). -/
def wrap32 (x : Int) : Int := (x + 2147483648) % 4294967296 - 2147483648

/-! ## Memory access -/

/-- Read the `struct list_head` at `p`; a fault on freed or poisoned memory. -/
def Mem.load (m : Mem) : Ptr → Option list_head
  | .head => some m.rcu_demo_list
  | .node k => (m.slab k).map (fun n => n.list)
  | .poison2 => none

/-- Write the `struct list_head` at `p`; a fault on freed or poisoned memory. -/
def Mem.store (m : Mem) (p : Ptr) (v : list_head) : Option Mem :=
  match p with
  | .head => some { m with rcu_demo_list := v }
  | .node k =>
    match m.slab k with
    | some n => some { m with slab := fun j => if j = k then some { n with list := v } else m.slab j }
    | none => none
  | .poison2 => none

/-- The assignment `p->next = v`. -/
def Mem.set_next (m : Mem) (p v : Ptr) : Option Mem :=
  match m.load p with
  | some h => m.store p { h with next := v }
  | none => none

/-- The assignment `p->prev = v`. -/
def Mem.set_prev (m : Mem) (p v : Ptr) : Option Mem :=
  match m.load p with
  | some h => m.store p { h with prev := v }
  | none => none

/-- The assignment `node->id = v`. -/
def Mem.set_id (m : Mem) (k : Nat) (v : Int) : Option Mem :=
  match m.slab k with
  | some n => some { m with slab := fun j => if j = k then some { n with id := v } else m.slab j }
  | none => none

/-- The call `snprintf(node->name, sizeof(node->name), ...)` storing `s`. -/
def Mem.set_name (m : Mem) (k : Nat) (s : String) : Option Mem :=
  match m.slab k with
  | some n => some { m with slab := fun j => if j = k then some { n with name := s } else m.slab j }
  | none => none

/-- Modelled from the spec: `kmalloc` of `<linux/slab.h>`, which is not among
the sources, on success ("allocate a new Node"): object `k` becomes live; its
contents are not initialised (the placeholder values are never read before
being written). -/
def Mem.kmalloc (m : Mem) (k : Nat) : Mem :=
  { m with slab := fun j => if j = k then some ⟨0, "", ⟨.poison2, .poison2⟩⟩ else m.slab j }

/-- Modelled from the spec: `kfree` of `<linux/slab.h>`, which is not among
the sources ("release the Node's memory"); freeing memory that is not live is
a fault. -/
def Mem.kfree (m : Mem) (k : Nat) : Option Mem :=
  match m.slab k with
  | some _ => some { m with slab := fun j => if j = k then none else m.slab j }
  | none => none

/-- `LIST_HEAD(rcu_demo_list)`: an empty list, nothing allocated. -/
def Mem.init : Mem := ⟨⟨.head, .head⟩, fun _ => none⟩

/-- State at module load. -/
def World.init : World := ⟨Mem.init, 0, []⟩

/-! ## Kernel list primitives (`<linux/list.h>`, `<linux/rculist.h>`) -/

/-- Modelled from the spec: `__list_add_rcu` of `<linux/rculist.h>`, which is
not among the sources. The new entry's links are written first, then the
predecessor's `next` is redirected to it (the publish), then the successor's
`prev`. -/
def __list_add_rcu (m : Mem) (new prev next : Ptr) : Option Mem := do
  let m1 ← m.set_next new next
  let m2 ← m1.set_prev new prev
  let m3 ← m2.set_next prev new
  m3.set_prev next new

/-- Modelled from the spec: `list_add_rcu(new, head)` of `<linux/rculist.h>`,
which is not among the sources: insert `new` right after `head`, "its `next`
pointing at the previous head". -/
def list_add_rcu (m : Mem) (new hd : Ptr) : Option Mem := do
  let h ← m.load hd
  __list_add_rcu m new hd h.next

/-- Modelled from the spec: `__list_del(prev, next)` of `<linux/list.h>`,
which is not among the sources: "redirecting the previous link around" the
entry. -/
def __list_del (m : Mem) (prev next : Ptr) : Option Mem := do
  let m1 ← m.set_prev next prev
  m1.set_next prev next

/-- Modelled from the spec: `list_del_rcu(entry)` of `<linux/rculist.h>`,
which is not among the sources: unlink the entry, "leaving the removed Node's
own `next` untouched"; only its `prev` is poisoned. -/
def list_del_rcu (m : Mem) (entry : Ptr) : Option Mem := do
  let e ← m.load entry
  let m1 ← __list_del m e.prev e.next
  m1.set_prev entry .poison2

/-! ## The reader thread -/

/-- Body of `list_for_each_entry_rcu` in `rcu_reader`, started with the cursor
at `pos`: returns the nodes visited and the new value of `count`. -/
def rcu_reader_walk (m : Mem) : Nat → Ptr → Int → Option (List Nat × Int)
  | 0, _, _ => none
  | fuel + 1, pos, count =>
    match pos with
    | .head => some ([], count)
    | .poison2 => none
    | .node k =>
      match m.slab k with
      | none => none
      | some n =>
        let count := wrap32 (count + 1)
        if count ≥ 5 then some ([k], count)
        else
          match rcu_reader_walk m fuel n.list.next count with
          | some (vs, c) => some (k :: vs, c)
          | none => none

/-- One pass of the `while` loop of `rcu_reader`, between `rcu_read_lock` and
`rcu_read_unlock`, over memory `m`. -/
def rcu_reader_session (fuel : Nat) (m : Mem) (count : Int) : Option (List Nat × Int) :=
  rcu_reader_walk m fuel m.rcu_demo_list.next count

/-- The `while (!kthread_should_stop())` loop of `rcu_reader`: one session per
memory snapshot, `count` carried from one session to the next. -/
def rcu_reader_loop (fuel : Nat) : List Mem → Int → Option (List (List Nat))
  | [], _ => some []
  | m :: ms, count =>
    match rcu_reader_session fuel m count with
    | none => none
    | some (vs, c) =>
      match rcu_reader_loop fuel ms c with
      | some vss => some (vs :: vss)
      | none => none

/-- The thread function `rcu_reader`: `int count = 0;` and then the loop. -/
def rcu_reader (fuel : Nat) (ms : List Mem) : Option (List (List Nat)) :=
  rcu_reader_loop fuel ms 0

/-! ## The writer thread -/

/-- The `list_for_each_entry_rcu` loop of step 3 of `rcu_writer`, started with
the cursor at `pos`: the first node whose id is `target` is unlinked and
returned as `old_node`. -/
def rcu_writer_scan (target : Int) (w : World) : Nat → Ptr → Option (Option Nat × World)
  | 0, _ => none
  | fuel + 1, pos =>
    match pos with
    | .head => some (none, w)
    | .poison2 => none
    | .node k =>
      match w.mem.slab k with
      | none => none
      | some n =>
        if n.id = target then
          match list_del_rcu w.mem (.node k) with
          | some m => some (some k, { w with mem := m, trace := w.trace ++ [.list_del_rcu k] })
          | none => none
        else rcu_writer_scan target w fuel n.list.next

/-- Steps 3 and 4 of a cycle of `rcu_writer` (the `if (id > 2)` block); under
that guard `id - 2` does not overflow. -/
def rcu_writer_retire (fuel : Nat) (id : Int) (w : World) : Option World :=
  if id > 2 then
    let w1 : World := { w with trace := w.trace ++ [.rcu_read_lock] }
    match rcu_writer_scan (id - 2) w1 fuel w1.mem.rcu_demo_list.next with
    | none => none
    | some (old_node, w2) =>
      let w3 : World := { w2 with trace := w2.trace ++ [.rcu_read_unlock] }
      match old_node with
      | some k =>
        match w3.mem.kfree k with
        | some m => some { w3 with mem := m, trace := w3.trace ++ [.synchronize_rcu, .kfree k] }
        | none => none
      | none => some w3
  else some w

/-- The text `"node_%d"` printed into the 32-byte `name` buffer. -/
def node_name (id : Int) : String := ("node_" ++ toString id).take 31

/-- Steps 1 and 2 of a successful cycle up to, not including, `list_add_rcu`:
the node is allocated and its `id` and `name` are written. -/
def rcu_writer_prepare (id : Int) (w : World) : Option World := do
  let k := w.brk
  let m0 := w.mem.kmalloc k
  let m1 ← m0.set_id k id
  let m2 ← m1.set_name k (node_name id)
  some { mem := m2, brk := k + 1,
         trace := w.trace ++ [.kmalloc (some k), .set_id k id, .set_name k] }

/-- Step 2 of a cycle: `list_add_rcu(&new_node->list, &rcu_demo_list)`. -/
def rcu_writer_link (k : Nat) (w : World) : Option World := do
  let m ← list_add_rcu w.mem (.node k) .head
  some { w with mem := m, trace := w.trace ++ [.list_add_rcu k] }

/-- Steps 1 and 2 of a successful cycle of `rcu_writer`. -/
def rcu_writer_publish (id : Int) (w : World) : Option World := do
  let w1 ← rcu_writer_prepare id w
  rcu_writer_link w.brk w1

/-- One pass of the `while` loop of `rcu_writer`; `alloc_ok` says whether
`kmalloc` succeeds. Returns the new state and the new value of `id`. -/
def rcu_writer_cycle (fuel : Nat) (alloc_ok : Bool) (w : World) (id : Int) : Option (World × Int) :=
  if alloc_ok then
    match rcu_writer_publish id w with
    | none => none
    | some w1 =>
      match rcu_writer_retire fuel id w1 with
      | none => none
      | some w2 => some (w2, wrap32 (id + 1))
  else
    some ({ w with trace := w.trace ++ [.kmalloc none] }, id)

/-- The `while (!kthread_should_stop())` loop of `rcu_writer`: one cycle per
allocation outcome. -/
def rcu_writer_loop (fuel : Nat) : List Bool → World → Int → Option (World × Int)
  | [], w, id => some (w, id)
  | a :: r, w, id =>
    match rcu_writer_cycle fuel a w id with
    | none => none
    | some (w1, id1) => rcu_writer_loop fuel r w1 id1

/-- The thread function `rcu_writer`, started at module load: `int id = 1;`
and then the loop. -/
def rcu_writer (fuel : Nat) (r : List Bool) : Option (World × Int) :=
  rcu_writer_loop fuel r World.init 1

/-! ## Module unload -/

/-- The `list_for_each_entry_safe` loop of `rcu_demo_exit` with cursor `pos`
and lookahead `n`. -/
def rcu_demo_exit_loop : Nat → World → Ptr → Ptr → Option World
  | 0, _, _, _ => none
  | fuel + 1, w, pos, n =>
    match pos with
    | .head => some w
    | .poison2 => none
    | .node k =>
      match list_del_rcu w.mem (.node k) with
      | none => none
      | some m1 =>
        match m1.kfree k with
        | none => none
        | some m2 =>
          match m2.load n with
          | none => none
          | some h =>
            rcu_demo_exit_loop fuel
              { w with mem := m2, trace := w.trace ++ [.list_del_rcu k, .kfree k] } n h.next

/-- The function `rcu_demo_exit`; `reader_ok` and `writer_ok` are the results
of `!IS_ERR(reader_thread)` and `!IS_ERR(writer_thread)`. -/
def rcu_demo_exit (fuel : Nat) (reader_ok writer_ok : Bool) (w : World) : Option World :=
  let t1 := if reader_ok then [Event.kthread_stop_reader] else []
  let t2 := if writer_ok then [Event.kthread_stop_writer] else []
  let w1 : World := { w with trace := w.trace ++ t1 ++ t2 ++ [.synchronize_rcu] }
  match w1.mem.load w1.mem.rcu_demo_list.next with
  | none => none
  | some h => rcu_demo_exit_loop fuel w1 w1.mem.rcu_demo_list.next h.next

/-! ## Observations -/

/-- Follow `next` links from `pos` until the list head, collecting the nodes
passed. -/
def follow (m : Mem) : Nat → Ptr → Option (List Nat)
  | 0, _ => none
  | fuel + 1, pos =>
    match pos with
    | .head => some []
    | .poison2 => none
    | .node k =>
      match m.slab k with
      | none => none
      | some n =>
        match follow m fuel n.list.next with
        | some ks => some (k :: ks)
        | none => none

/-- The chain reachable from `rcu_demo_list`, head first. -/
def chain (fuel : Nat) (m : Mem) : Option (List Nat) :=
  follow m fuel m.rcu_demo_list.next

/-- The `id` field of a live node. -/
def id_of (m : Mem) (k : Nat) : Option Int := (m.slab k).map (fun n => n.id)

/-- The ids along the chain, head first. -/
def chain_ids (fuel : Nat) (m : Mem) : Option (List (Option Int)) :=
  (chain fuel m).map (fun ks => ks.map (id_of m))

/-- The `next` field at `p`, when `p` is valid memory. -/
def Mem.nxt (m : Mem) (p : Ptr) : Option Ptr := (m.load p).map (fun h => h.next)

/-- The `prev` field at `p`, when `p` is valid memory. -/
def Mem.prv (m : Mem) (p : Ptr) : Option Ptr := (m.load p).map (fun h => h.prev)

/-- The `id` and `name` of a live node. -/
def payload (m : Mem) (k : Nat) : Option (Int × String) := (m.slab k).map (fun n => (n.id, n.name))

/-- Following the link map `g` from `c` passes exactly through `ps`, in
order, and arrives at `e`. -/
def Seg (g : Ptr → Option Ptr) : Ptr → List Ptr → Ptr → Prop
  | c, [], e => c = e
  | c, p :: ps, e => c = p ∧ ∃ q, g p = some q ∧ Seg g q ps e

/-- Memory `m` holds a well-formed circular doubly linked list whose entries
after the head are the nodes `l`, in order: `next` links run through `l` and
back to the head, `prev` links run through `l` backwards. -/
def Ring (m : Mem) (l : List Nat) : Prop :=
  l.Nodup ∧ Seg m.nxt .head (.head :: l.map .node) .head ∧
    Seg m.prv .head (.head :: (l.map .node).reverse) .head

/-- Deciding `Seg` by following the links. -/
def Seg.decide (g : Ptr → Option Ptr) : (c : Ptr) → (ps : List Ptr) → (e : Ptr) →
    Decidable (Seg g c ps e)
  | c, [], e => if h : c = e then isTrue h else isFalse h
  | c, p :: ps, e =>
    if hc : c = p then
      match hq : g p with
      | some q =>
        match Seg.decide g q ps e with
        | isTrue hs => isTrue ⟨hc, q, hq, hs⟩
        | isFalse hs => isFalse (fun ⟨_, q1, hq1, hs1⟩ => by
            rw [hq] at hq1; cases hq1; exact hs hs1)
      | none => isFalse (fun ⟨_, q1, hq1, _⟩ => by rw [hq] at hq1; cases hq1)
    else isFalse (fun ⟨h, _⟩ => hc h)

instance (g : Ptr → Option Ptr) (c : Ptr) (ps : List Ptr) (e : Ptr) : Decidable (Seg g c ps e) :=
  Seg.decide g c ps e

instance (m : Mem) (l : List Nat) : Decidable (Ring m l) := by
  unfold Ring; infer_instance

/-- Every `kfree` of a node comes after a `list_del_rcu` of that node and a
`synchronize_rcu` issued after that unlink. -/
def FreedAfterBarrier (t : List Event) : Prop :=
  ∀ k t1 t2, t = t1 ++ Event.kfree k :: t2 →
    List.Sublist [Event.list_del_rcu k, Event.synchronize_rcu] t1

/-- The ids written into new nodes, in the order of the writes. -/
def published (t : List Event) : List Int :=
  t.filterMap (fun e => match e with
    | .set_id _ v => some v
    | _ => none)

/-- The nodes linked after `c` publishes from module load, none of them past
`INT_MAX`: the two newest. -/
def window : Nat → List Nat
  | 0 => []
  | 1 => [0]
  | c + 2 => [c + 1, c]

/-- Invariant of the writer loop between cycles. -/
structure Inv (w : World) (l : List Nat) : Prop where
  ring : Ring w.mem l
  live : ∀ k, (w.mem.slab k).isSome ↔ k ∈ l
  bound : ∀ k ∈ l, k < w.brk
  fab : FreedAfterBarrier w.trace
  once : ∀ k, w.trace.count (.list_del_rcu k) = w.trace.count (.kfree k) ∧
    w.trace.count (.kfree k) ≤ 1
  fresh : ∀ k, k ∈ l ∨ w.brk ≤ k → w.trace.count (.list_del_rcu k) = 0

/-- State of the writer loop after `c` publishes from module load, `id` being
the loop variable: the chain is the window of the two newest nodes, node `k`
carries id `k + 1`, and every node older than the window has been freed. -/
structure FirstPass (w : World) (id : Int) (c : Nat) : Prop where
  ring : Ring w.mem (window c)
  brk : w.brk = c
  idv : id = wrap32 ((c : Int) + 1)
  pay : ∀ k, payload w.mem k =
    if k ∈ window c then some ((k : Int) + 1, node_name ((k : Int) + 1)) else none
  pub : published w.trace = (List.range c).map (fun (i : Nat) => (i : Int) + 1)
  ids : ∀ k v, Event.set_id k v ∈ w.trace ↔ k < c ∧ v = (k : Int) + 1
  freed : ∀ k, Event.kfree k ∈ w.trace ↔ k + 2 < c

/-- The state after two successful writer cycles from module load. -/
def world2 : World := ((rcu_writer 4 [true, true]).map Prod.fst).getD World.init

/-- The state after one successful writer cycle from module load. -/
def world1 : World := ((rcu_writer 4 [true]).map Prod.fst).getD World.init

/-- Three nodes with ids 1, 2, 3 published from module load and none retired:
the chain is 3, 2, 1. -/
def world321 : World :=
  (((rcu_writer_publish 1 World.init).bind (rcu_writer_publish 2)).bind
    (rcu_writer_publish 3)).getD World.init

/-! ## Memory lemmas -/

theorem load_isSome_of_nxt {m : Mem} {p q : Ptr} (h : m.nxt p = some q) : (m.load p).isSome := by
  unfold Mem.nxt at h
  cases hl : m.load p <;> simp [hl] at h ⊢

theorem load_isSome_of_prv {m : Mem} {p q : Ptr} (h : m.prv p = some q) : (m.load p).isSome := by
  unfold Mem.prv at h
  cases hl : m.load p <;> simp [hl] at h ⊢

theorem set_next_ok (m : Mem) (p v : Ptr) (h : (m.load p).isSome) :
    ∃ m1, m.set_next p v = some m1 ∧ m1.nxt = Function.update m.nxt p (some v) ∧
      m1.prv = m.prv ∧ payload m1 = payload m ∧ ∀ q, (m1.load q).isSome = (m.load q).isSome := by
  cases p with
  | head =>
    refine ⟨_, by simp [Mem.set_next, Mem.load, Mem.store]; rfl, ?_, ?_, ?_, ?_⟩
    · funext q; cases q <;> simp [Mem.nxt, Mem.load, Function.update]
    · funext q; cases q <;> simp [Mem.prv, Mem.load]
    · funext k; simp [payload]
    · intro q; cases q <;> simp [Mem.load]
  | poison2 => simp [Mem.load] at h
  | node k =>
    cases hk : m.slab k with
    | none => simp [Mem.load, hk] at h
    | some n =>
      refine ⟨_, by simp [Mem.set_next, Mem.load, Mem.store, hk]; rfl, ?_, ?_, ?_, ?_⟩
      · funext q
        cases q with
        | head => simp [Mem.nxt, Mem.load, Function.update]
        | poison2 => simp [Mem.nxt, Mem.load, Function.update]
        | node j =>
          by_cases hj : j = k
          · subst hj; simp [Mem.nxt, Mem.load, Function.update]
          · simp [Mem.nxt, Mem.load, Function.update, hj]
      · funext q
        cases q with
        | head => simp [Mem.prv, Mem.load]
        | poison2 => simp [Mem.prv, Mem.load]
        | node j =>
          by_cases hj : j = k
          · subst hj; simp [Mem.prv, Mem.load, hk]
          · simp [Mem.prv, Mem.load, hj]
      · funext j
        by_cases hj : j = k
        · subst hj; simp [payload, hk]
        · simp [payload, hj]
      · intro q
        cases q with
        | head => simp [Mem.load]
        | poison2 => simp [Mem.load]
        | node j =>
          by_cases hj : j = k
          · subst hj; simp [Mem.load, hk]
          · simp [Mem.load, hj]

theorem set_prev_ok (m : Mem) (p v : Ptr) (h : (m.load p).isSome) :
    ∃ m1, m.set_prev p v = some m1 ∧ m1.prv = Function.update m.prv p (some v) ∧
      m1.nxt = m.nxt ∧ payload m1 = payload m ∧ ∀ q, (m1.load q).isSome = (m.load q).isSome := by
  cases p with
  | head =>
    refine ⟨_, by simp [Mem.set_prev, Mem.load, Mem.store]; rfl, ?_, ?_, ?_, ?_⟩
    · funext q; cases q <;> simp [Mem.prv, Mem.load, Function.update]
    · funext q; cases q <;> simp [Mem.nxt, Mem.load]
    · funext k; simp [payload]
    · intro q; cases q <;> simp [Mem.load]
  | poison2 => simp [Mem.load] at h
  | node k =>
    cases hk : m.slab k with
    | none => simp [Mem.load, hk] at h
    | some n =>
      refine ⟨_, by simp [Mem.set_prev, Mem.load, Mem.store, hk]; rfl, ?_, ?_, ?_, ?_⟩
      · funext q
        cases q with
        | head => simp [Mem.prv, Mem.load, Function.update]
        | poison2 => simp [Mem.prv, Mem.load, Function.update]
        | node j =>
          by_cases hj : j = k
          · subst hj; simp [Mem.prv, Mem.load, Function.update]
          · simp [Mem.prv, Mem.load, Function.update, hj]
      · funext q
        cases q with
        | head => simp [Mem.nxt, Mem.load]
        | poison2 => simp [Mem.nxt, Mem.load]
        | node j =>
          by_cases hj : j = k
          · subst hj; simp [Mem.nxt, Mem.load, hk]
          · simp [Mem.nxt, Mem.load, hj]
      · funext j
        by_cases hj : j = k
        · subst hj; simp [payload, hk]
        · simp [payload, hj]
      · intro q
        cases q with
        | head => simp [Mem.load]
        | poison2 => simp [Mem.load]
        | node j =>
          by_cases hj : j = k
          · subst hj; simp [Mem.load, hk]
          · simp [Mem.load, hj]

/-! ## Segments of a link map -/

theorem seg_congr {g g1 : Ptr → Option Ptr} {ps : List Ptr} {c e : Ptr}
    (hg : ∀ p ∈ ps, g1 p = g p) (h : Seg g c ps e) : Seg g1 c ps e := by
  induction ps generalizing c with
  | nil => exact h
  | cons p ps ih =>
    obtain ⟨hc, q, hq, hs⟩ := h
    refine ⟨hc, q, ?_, ih (fun x hx => hg x (List.mem_cons_of_mem _ hx)) hs⟩
    rw [hg p (List.mem_cons_self _ _)]; exact hq

theorem seg_append {g : Ptr → Option Ptr} {ps qs : List Ptr} {c e : Ptr} :
    Seg g c (ps ++ qs) e ↔ ∃ x, Seg g c ps x ∧ Seg g x qs e := by
  induction ps generalizing c with
  | nil =>
    constructor
    · intro h; exact ⟨c, rfl, h⟩
    · rintro ⟨x, hx, h⟩
      have : c = x := hx
      subst this; exact h
  | cons p ps ih =>
    constructor
    · rintro ⟨hc, q, hq, hs⟩
      obtain ⟨x, h1, h2⟩ := ih.mp hs
      exact ⟨x, ⟨hc, q, hq, h1⟩, h2⟩
    · rintro ⟨x, ⟨hc, q, hq, h1⟩, h2⟩
      exact ⟨hc, q, hq, ih.mpr ⟨x, h1, h2⟩⟩

theorem seg_start {g : Ptr → Option Ptr} {ps : List Ptr} {c e : Ptr} (h : Seg g c ps e) :
    c = ps.headD e := by
  cases ps with
  | nil => exact h
  | cons p ps => exact h.1

theorem seg_next {g : Ptr → Option Ptr} {A B : List Ptr} {X c e : Ptr}
    (h : Seg g c (A ++ X :: B) e) : g X = some (B.headD e) := by
  obtain ⟨x, _, h2⟩ := seg_append.mp h
  obtain ⟨_, q, hq, hs⟩ := h2
  rw [hq, seg_start hs]

theorem seg_insert {g : Ptr → Option Ptr} {A B : List Ptr} {N X c e : Ptr}
    (h : Seg g c (A ++ N :: B) e) (hX : X ∉ A ++ N :: B) (hNA : N ∉ A) (hNB : N ∉ B) :
    Seg (Function.update (Function.update g X (g N)) N (some X)) c (A ++ N :: X :: B) e := by
  have hXN : X ≠ N := fun hh => hX (by simp [hh])
  have hXA : X ∉ A := fun hh => hX (by simp [hh])
  have hXB : X ∉ B := fun hh => hX (by simp [hh])
  obtain ⟨x, h1, h2⟩ := seg_append.mp h
  obtain ⟨hx, q, hq, hs⟩ := h2
  refine seg_append.mpr ⟨x, seg_congr ?_ h1, hx, X, by simp, rfl, q, ?_, seg_congr ?_ hs⟩
  · intro p hp
    have h1 : p ≠ N := fun hh => hNA (hh ▸ hp)
    have h2 : p ≠ X := fun hh => hXA (hh ▸ hp)
    simp [Function.update, h1, h2]
  · simp [Function.update, hXN, hq]
  · intro p hp
    have h1 : p ≠ N := fun hh => hNB (hh ▸ hp)
    have h2 : p ≠ X := fun hh => hXB (hh ▸ hp)
    simp [Function.update, h1, h2]

theorem seg_delete {g : Ptr → Option Ptr} {A B : List Ptr} {P X c e : Ptr}
    (h : Seg g c (A ++ P :: X :: B) e) (hnd : (A ++ P :: X :: B).Nodup) :
    Seg (Function.update g P (g X)) c (A ++ P :: B) e := by
  have hPA : P ∉ A := fun hh => by
    have := List.nodup_append.mp hnd
    exact this.2.2 hh (by simp)
  have hPB : P ∉ B := fun hh => by
    have := (List.nodup_append.mp hnd).2.1
    simp at this
    exact this.1.2 hh
  obtain ⟨x, h1, h2⟩ := seg_append.mp h
  obtain ⟨hx, q, _, hs⟩ := h2
  obtain ⟨_, r, hr, ht⟩ := hs
  refine seg_append.mpr ⟨x, seg_congr ?_ h1, hx, r, ?_, seg_congr ?_ ht⟩
  · intro p hp
    have h1 : p ≠ P := fun hh => hPA (hh ▸ hp)
    simp [Function.update, h1]
  · simp [Function.update, hr]
  · intro p hp
    have h1 : p ≠ P := fun hh => hPB (hh ▸ hp)
    simp [Function.update, h1]

theorem cons_eq_concat (h : Ptr) (L : List Ptr) :
    ∃ A, h :: L = A ++ [L.reverse.headD h] := by
  rcases List.eq_nil_or_concat L with rfl | ⟨L1, a, rfl⟩
  · exact ⟨[], rfl⟩
  · exact ⟨h :: L1, by simp⟩

/-! ## The list primitives on a well-formed ring -/

theorem ptrs_nodup {l : List Nat} (h : l.Nodup) : (Ptr.head :: l.map Ptr.node).Nodup := by
  refine List.nodup_cons.mpr ⟨by simp, ?_⟩
  exact (List.nodup_map_iff (fun a b hab => by injection hab)).mpr h

theorem ptrs_nodup_rev {l : List Nat} (h : l.Nodup) :
    (Ptr.head :: (l.map Ptr.node).reverse).Nodup := by
  refine List.nodup_cons.mpr ⟨by simp, ?_⟩
  exact List.nodup_reverse.mpr ((List.nodup_map_iff (fun a b hab => by injection hab)).mpr h)

theorem ring_live {m : Mem} {l : List Nat} (h : Ring m l) {k : Nat} (hk : k ∈ l) :
    (m.slab k).isSome := by
  obtain ⟨l1, l2, rfl⟩ := List.append_of_mem hk
  have h1 : Seg m.nxt .head ((Ptr.head :: l1.map Ptr.node) ++ Ptr.node k :: l2.map Ptr.node) .head := by
    simpa using h.2.1
  have h2 := load_isSome_of_nxt (seg_next h1)
  simpa [Mem.load] using h2

theorem ring_head_next {m : Mem} {l : List Nat} (h : Ring m l) :
    m.rcu_demo_list.next = (l.map Ptr.node).headD .head := by
  have h1 : Seg m.nxt .head ([] ++ Ptr.head :: l.map Ptr.node) .head := h.2.1
  have h2 := seg_next h1
  simpa [Mem.nxt, Mem.load] using h2

theorem ring_add {m : Mem} {l : List Nat} {k : Nat} (h : Ring m l) (hk : k ∉ l)
    (hlive : (m.slab k).isSome) :
    ∃ m1, list_add_rcu m (.node k) .head = some m1 ∧ Ring m1 (k :: l) ∧
      payload m1 = payload m ∧ m1.nxt (.node k) = some m.rcu_demo_list.next := by
  obtain ⟨hnd, hn, hp⟩ := h
  have hN0 := ring_head_next ⟨hnd, hn, hp⟩
  set N0 := m.rcu_demo_list.next with hN0def
  have hXl : Ptr.node k ∉ Ptr.head :: l.map Ptr.node := by simpa using hk
  have hXr : Ptr.node k ∉ Ptr.head :: (l.map Ptr.node).reverse := by simpa using hk
  -- the successor is the last entry of the backward list
  obtain ⟨A, hA⟩ := cons_eq_concat Ptr.head (l.map Ptr.node).reverse
  rw [List.reverse_reverse, ← hN0] at hA
  have hp1 : Seg m.prv .head (A ++ N0 :: []) .head := by rw [← hA]; exact hp
  have hpN0 : m.prv N0 = some .head := by simpa using seg_next hp1
  have hnN0 : m.nxt .head = some N0 := by simp [Mem.nxt, Mem.load, hN0def]
  -- the four stores
  obtain ⟨m1, e1, n1, p1, y1, s1⟩ := set_next_ok m (.node k) N0 (by simpa [Mem.load] using hlive)
  obtain ⟨m2, e2, p2, n2, y2, s2⟩ := set_prev_ok m1 (.node k) .head
    (by rw [s1]; simpa [Mem.load] using hlive)
  obtain ⟨m3, e3, n3, p3, y3, s3⟩ := set_next_ok m2 .head (.node k) (by simp [Mem.load])
  obtain ⟨m4, e4, p4, n4, y4, s4⟩ := set_prev_ok m3 N0 (.node k)
    (by rw [s3, s2, s1]; exact load_isSome_of_prv hpN0)
  refine ⟨m4, ?_, ⟨List.nodup_cons.mpr ⟨hk, hnd⟩, ?_, ?_⟩, ?_, ?_⟩
  · simp [list_add_rcu, __list_add_rcu, Mem.load, ← hN0def, e1, e2, e3, e4]
  · rw [n4, n3, n2, n1, ← hnN0]
    have := seg_insert (A := []) (N := .head) (X := .node k) hn hXl (by simp) (by simp)
    simpa using this
  · rw [p4, p3, p2, p1, ← hpN0]
    have hnd1 : (A ++ [N0]).Nodup := by rw [← hA]; exact ptrs_nodup_rev hnd
    have hNA : N0 ∉ A := fun hh => (List.nodup_append.mp hnd1).2.2 hh (by simp)
    have := seg_insert (A := A) (N := N0) (B := []) (X := .node k) hp1
      (by rw [← hA]; exact hXr) hNA (by simp)
    have e : Ptr.head :: (List.map Ptr.node (k :: l)).reverse = A ++ [N0, Ptr.node k] := by
      have : A ++ [N0, Ptr.node k] = (A ++ [N0]) ++ [Ptr.node k] := by simp
      rw [this, ← hA]; simp
    rw [e]; exact this
  · rw [y4, y3, y2, y1]
  · rw [n4, n3, n2, n1]
    simp [Function.update]

theorem ring_del {m : Mem} {l1 l2 : List Nat} {k : Nat} (h : Ring m (l1 ++ k :: l2)) :
    ∃ m1, list_del_rcu m (.node k) = some m1 ∧ Ring m1 (l1 ++ l2) ∧
      payload m1 = payload m ∧ m1.nxt (.node k) = m.nxt (.node k) ∧
      m1.prv (.node k) = some .poison2 ∧
      Seg m1.nxt (.node k) (.node k :: l2.map .node) .head := by
  obtain ⟨hnd, hn, hp⟩ := h
  have hndl := ptrs_nodup hnd
  have hndr := ptrs_nodup_rev hnd
  simp only [List.map_append, List.map_cons, List.reverse_append, List.reverse_cons,
    List.append_assoc, List.singleton_append] at hn hp hndl hndr
  set X := Ptr.node k with hX
  set L1 := l1.map Ptr.node with hL1
  set L2 := l2.map Ptr.node with hL2
  obtain ⟨A, hA⟩ := cons_eq_concat Ptr.head L1
  obtain ⟨B, hB⟩ := cons_eq_concat Ptr.head L2.reverse
  rw [List.reverse_reverse] at hB
  set P := L1.reverse.headD Ptr.head with hP
  set N := L2.headD Ptr.head with hN
  have en : Ptr.head :: (L1 ++ X :: L2) = A ++ P :: X :: L2 := by
    rw [← List.cons_append, hA]; simp
  have ep : Ptr.head :: (L2.reverse ++ X :: L1.reverse) = B ++ N :: X :: L1.reverse := by
    rw [← List.cons_append, hB]; simp
  rw [en] at hn hndl
  rw [ep] at hp hndr
  have hnX : m.nxt X = some N := by
    have : Seg m.nxt .head ((A ++ [P]) ++ X :: L2) .head := by simpa using hn
    exact seg_next this
  have hpX : m.prv X = some P := by
    have : Seg m.prv .head ((B ++ [N]) ++ X :: L1.reverse) .head := by simpa using hp
    exact seg_next this
  have hnP : m.nxt P = some X := by simpa using seg_next hn
  have hpN : m.prv N = some X := by simpa using seg_next hp
  obtain ⟨e, he⟩ := Option.isSome_iff_exists.mp (load_isSome_of_nxt hnX)
  have hen : e.next = N := by simpa [Mem.nxt, he] using hnX
  have hep : e.prev = P := by simpa [Mem.prv, he] using hpX
  obtain ⟨m1, e1, p1, n1, y1, s1⟩ := set_prev_ok m N P (load_isSome_of_prv hpN)
  obtain ⟨m2, e2, n2, p2, y2, s2⟩ := set_next_ok m1 P N
    (by rw [s1]; exact load_isSome_of_nxt hnP)
  obtain ⟨m3, e3, p3, n3, y3, s3⟩ := set_prev_ok m2 X .poison2
    (by rw [s2, s1]; exact load_isSome_of_nxt hnX)
  have hXP : X ≠ P := by
    intro hh
    have := (List.nodup_append.mp hndl).2.1
    simp [hh] at this
  have hXA : X ∉ A := fun hh => (List.nodup_append.mp hndl).2.2 hh (by simp)
  have hXL2 : X ∉ L2 := fun hh => by
    have := (List.nodup_append.mp hndl).2.1
    simp at this
    exact this.2.1 hh
  have hPL2 : P ∉ L2 := fun hh => by
    have := (List.nodup_append.mp hndl).2.1
    simp at this
    exact this.1.2 hh
  have hXN : X ≠ N := by
    intro hh
    have := (List.nodup_append.mp hndr).2.1
    simp [hh] at this
  have hXB : X ∉ B := fun hh => (List.nodup_append.mp hndr).2.2 hh (by simp)
  have hXL1 : X ∉ L1.reverse := fun hh => by
    have := (List.nodup_append.mp hndr).2.1
    simp at this
    exact this.2.1 (by simpa using hh)
  refine ⟨m3, ?_, ⟨?_, ?_, ?_⟩, ?_, ?_, ?_, ?_⟩
  · simp [list_del_rcu, __list_del, he, hen, hep, e1, e2, e3]
  · exact (List.nodup_append.mpr ⟨(List.nodup_append.mp hnd).1,
      (List.nodup_cons.mp (List.nodup_append.mp hnd).2.1).2,
      fun a ha hb => (List.nodup_append.mp hnd).2.2 ha (List.mem_cons_of_mem _ hb)⟩)
  · rw [n3, n2, n1, ← hnX]
    have := seg_delete hn hndl
    have e : Ptr.head :: List.map Ptr.node (l1 ++ l2) = A ++ P :: L2 := by
      rw [List.map_append, ← List.cons_append, ← hL1, hA]; simp [hL2]
    rw [e]; exact this
  · rw [p3, p2, p1, ← hpX]
    have := seg_delete hp hndr
    have e : Ptr.head :: (List.map Ptr.node (l1 ++ l2)).reverse = B ++ N :: L1.reverse := by
      rw [List.map_append, List.reverse_append, ← List.cons_append, ← hL2, hB]; simp [hL1]
    rw [e]
    refine seg_congr ?_ this
    intro p hp
    have : p ≠ X := by
      intro hh
      rw [hh] at hp
      rcases List.mem_append.mp hp with h1 | h1
      · exact hXB h1
      · rcases List.mem_cons.mp h1 with h2 | h2
        · exact hXN h2
        · exact hXL1 h2
    simp [Function.update, this]
  · rw [y3, y2, y1]
  · rw [n3, n2, n1]; simp [Function.update, hXP]
  · rw [p3]; simp [Function.update]
  · rw [n3, n2, n1]
    have h1 : Seg m.nxt .head ((A ++ [P]) ++ X :: L2) .head := by simpa using hn
    obtain ⟨x, _, h2⟩ := seg_append.mp h1
    have hx : x = X := h2.1
    rw [hx] at h2
    refine seg_congr ?_ h2
    intro p hp
    have : p ≠ P := by
      intro hh
      rw [hh] at hp
      rcases List.mem_cons.mp hp with h3 | h3
      · exact hXP h3.symm
      · exact hPL2 h3
    simp [Function.update, this]

theorem ring_kfree {m : Mem} {l : List Nat} {k : Nat} (h : Ring m l) (hk : k ∉ l)
    (hlive : (m.slab k).isSome) :
    ∃ m1, m.kfree k = some m1 ∧ Ring m1 l ∧ payload m1 = Function.update (payload m) k none := by
  obtain ⟨n, hn⟩ := Option.isSome_iff_exists.mp hlive
  refine ⟨_, by simp [Mem.kfree, hn]; rfl, ⟨h.1, seg_congr ?_ h.2.1, seg_congr ?_ h.2.2⟩, ?_⟩
  · intro p hp
    cases p with
    | head => simp [Mem.nxt, Mem.load]
    | poison2 => simp [Mem.nxt, Mem.load]
    | node j =>
      have : j ≠ k := by
        intro hh; subst hh; simp at hp; exact hk hp
      simp [Mem.nxt, Mem.load, this]
  · intro p hp
    cases p with
    | head => simp [Mem.prv, Mem.load]
    | poison2 => simp [Mem.prv, Mem.load]
    | node j =>
      have : j ≠ k := by
        intro hh; subst hh; simp at hp; exact hk hp
      simp [Mem.prv, Mem.load, this]
  · funext j
    by_cases hj : j = k
    · subst hj; simp [payload]
    · simp [payload, hj, Function.update]

/-! ## Traversals on a well-formed ring -/

theorem nxt_node {m : Mem} {k : Nat} {q : Ptr} (h : m.nxt (.node k) = some q) :
    ∃ n, m.slab k = some n ∧ n.list.next = q := by
  cases hk : m.slab k with
  | none => simp [Mem.nxt, Mem.load, hk] at h
  | some n => exact ⟨n, rfl, by simpa [Mem.nxt, Mem.load, hk] using h⟩

theorem follow_seg {m : Mem} {l : List Nat} {c : Ptr} {fuel : Nat}
    (h : Seg m.nxt c (l.map .node) .head) (hf : l.length < fuel) :
    follow m fuel c = some l := by
  induction l generalizing c fuel with
  | nil =>
    have hc : c = .head := h
    subst hc
    cases fuel with
    | zero => simp at hf
    | succ f => rfl
  | cons k l ih =>
    obtain ⟨hc, q, hq, hs⟩ := h
    subst hc
    obtain ⟨n, hn, hnq⟩ := nxt_node hq
    cases fuel with
    | zero => simp at hf
    | succ f =>
      have := @ih q f hs (by simpa using hf)
      simp [follow, hn, hnq, this]

theorem chain_ring {m : Mem} {l : List Nat} {fuel : Nat} (h : Ring m l) (hf : l.length < fuel) :
    chain fuel m = some l := by
  obtain ⟨_, q, hq, hs⟩ := h.2.1
  have : m.rcu_demo_list.next = q := by simpa [Mem.nxt, Mem.load] using hq
  unfold chain
  rw [this]
  exact follow_seg hs hf

theorem scan_skip (target : Int) (w : World) {l : List Nat} {c e : Ptr} (fuel : Nat)
    (h : Seg w.mem.nxt c (l.map .node) e) (hno : ∀ k ∈ l, id_of w.mem k ≠ some target) :
    rcu_writer_scan target w (fuel + l.length) c = rcu_writer_scan target w fuel e := by
  induction l generalizing c with
  | nil =>
    have hc : c = e := h
    subst hc; rfl
  | cons k l ih =>
    obtain ⟨hc, q, hq, hs⟩ := h
    subst hc
    obtain ⟨n, hn, hnq⟩ := nxt_node hq
    have hid : n.id ≠ target := by
      have := hno k (List.mem_cons_self _ _)
      simpa [id_of, hn] using this
    have := ih (c := q) hs (fun j hj => hno j (List.mem_cons_of_mem _ hj))
    rw [List.length_cons, ← Nat.add_assoc]
    simp only [rcu_writer_scan, hn, hid, if_false, hnq]
    exact this

theorem scan_none (target : Int) (w : World) {l : List Nat} {fuel : Nat}
    (h : Ring w.mem l) (hf : l.length < fuel) (hno : ∀ k ∈ l, id_of w.mem k ≠ some target) :
    rcu_writer_scan target w fuel w.mem.rcu_demo_list.next = some (none, w) := by
  obtain ⟨_, q, hq, hs⟩ := h.2.1
  have e : w.mem.rcu_demo_list.next = q := by simpa [Mem.nxt, Mem.load] using hq
  obtain ⟨f, rfl⟩ : ∃ f, fuel = (f + 1) + l.length := ⟨fuel - l.length - 1, by omega⟩
  rw [e, scan_skip target w (f + 1) hs hno]
  rfl

theorem scan_some (target : Int) (w : World) {l1 l2 : List Nat} {k : Nat} {fuel : Nat}
    (h : Ring w.mem (l1 ++ k :: l2)) (hf : (l1 ++ k :: l2).length < fuel)
    (hno : ∀ b ∈ l1, id_of w.mem b ≠ some target) (hk : id_of w.mem k = some target) :
    ∃ m1, list_del_rcu w.mem (.node k) = some m1 ∧
      rcu_writer_scan target w fuel w.mem.rcu_demo_list.next =
        some (some k, { w with mem := m1, trace := w.trace ++ [.list_del_rcu k] }) := by
  obtain ⟨m1, hd, _⟩ := ring_del h
  refine ⟨m1, hd, ?_⟩
  obtain ⟨_, q, hq, hs⟩ := h.2.1
  have e : w.mem.rcu_demo_list.next = q := by simpa [Mem.nxt, Mem.load] using hq
  rw [List.map_append] at hs
  obtain ⟨x, h1, h2⟩ := seg_append.mp hs
  obtain ⟨hx, _, _, _⟩ := h2
  subst hx
  obtain ⟨n, hn⟩ := Option.isSome_iff_exists.mp (ring_live h (k := k) (by simp))
  have hid : n.id = target := by simpa [id_of, hn] using hk
  obtain ⟨f, rfl⟩ : ∃ f, fuel = (f + 1) + l1.length := ⟨fuel - l1.length - 1, by
    simp at hf; omega⟩
  rw [e, scan_skip target w (f + 1) h1 hno]
  simp [rcu_writer_scan, hn, hid, hd]

/-! ## One writer cycle on a well-formed ring -/

theorem retire_skip (fuel : Nat) (id : Int) (w : World) (h : ¬ id > 2) :
    rcu_writer_retire fuel id w = some w := by
  simp [rcu_writer_retire, h]

theorem retire_none {fuel : Nat} {id : Int} {w : World} {l : List Nat} (hid : id > 2)
    (h : Ring w.mem l) (hf : l.length < fuel) (hno : ∀ k ∈ l, id_of w.mem k ≠ some (id - 2)) :
    rcu_writer_retire fuel id w =
      some { w with trace := w.trace ++ [.rcu_read_lock, .rcu_read_unlock] } := by
  have := scan_none (id - 2) { w with trace := w.trace ++ [.rcu_read_lock] } (l := l) h hf hno
  simp only [rcu_writer_retire, hid, if_true]
  simp [this]

theorem retire_some {fuel : Nat} {id : Int} {w : World} {l1 l2 : List Nat} {k : Nat}
    (hid : id > 2) (h : Ring w.mem (l1 ++ k :: l2)) (hf : (l1 ++ k :: l2).length < fuel)
    (hno : ∀ b ∈ l1, id_of w.mem b ≠ some (id - 2)) (hk : id_of w.mem k = some (id - 2)) :
    ∃ m1 m2, list_del_rcu w.mem (.node k) = some m1 ∧ m1.kfree k = some m2 ∧
      Seg m1.nxt (.node k) (.node k :: l2.map .node) .head ∧
      m1.nxt (.node k) = w.mem.nxt (.node k) ∧ payload m1 = payload w.mem ∧
      Ring m1 (l1 ++ l2) ∧ Ring m2 (l1 ++ l2) ∧
      payload m2 = Function.update (payload w.mem) k none ∧
      rcu_writer_retire fuel id w =
        some { w with mem := m2, trace := w.trace ++ [.rcu_read_lock, .list_del_rcu k,
          .rcu_read_unlock, .synchronize_rcu, .kfree k] } := by
  obtain ⟨m1, hd, hs⟩ := @scan_some (id - 2)
    { w with trace := w.trace ++ [.rcu_read_lock] } l1 l2 k fuel h hf hno hk
  obtain ⟨m1a, hd1, hr1, hy1, hn1, _, hseg⟩ := ring_del h
  have : m1a = m1 := by
    have := hd1.symm.trans hd
    exact Option.some.inj this
  subst this
  have hnd := h.1
  have hknot : k ∉ l1 ++ l2 := by
    intro hh
    have h1 := List.nodup_append.mp hnd
    rcases List.mem_append.mp hh with h2 | h2
    · exact h1.2.2 h2 (List.mem_cons_self _ _)
    · exact (List.nodup_cons.mp h1.2.1).1 h2
  have hlive : (m1a.slab k).isSome := by
    have h1 := ring_live h (k := k) (by simp)
    have h2 := congrFun hy1 k
    simp only [payload] at h2
    cases hh : m1a.slab k with
    | none => rw [hh] at h2; cases hw : w.mem.slab k <;> simp [hw] at h2 h1
    | some n => rfl
  obtain ⟨m2, hf2, hr2, hy2⟩ := ring_kfree hr1 hknot hlive
  refine ⟨m1a, m2, hd1, hf2, hseg, hn1, hy1, hr1, hr2, by rw [hy2, hy1], ?_⟩
  simp only [rcu_writer_retire, hid, if_true]
  simp [hs, hf2]

theorem prepare_eq (id : Int) (w : World) :
    rcu_writer_prepare id w = some
      { mem := ⟨w.mem.rcu_demo_list, fun j =>
          if j = w.brk then some ⟨id, node_name id, ⟨.poison2, .poison2⟩⟩ else w.mem.slab j⟩,
        brk := w.brk + 1,
        trace := w.trace ++
          [.kmalloc (some w.brk), .set_id w.brk id, .set_name w.brk] } := by
  simp only [rcu_writer_prepare, Mem.kmalloc, Mem.set_id, Mem.set_name, if_true, Option.bind_eq_bind,
    Option.some_bind]
  congr 3
  funext j
  by_cases hj : j = w.brk <;> simp [hj]

theorem prepare_ring {id : Int} {w w1 : World} {l : List Nat}
    (hp : rcu_writer_prepare id w = some w1) (h : Ring w.mem l) (hk : w.brk ∉ l) :
    Ring w1.mem l ∧ w1.mem.slab w.brk = some ⟨id, node_name id, ⟨.poison2, .poison2⟩⟩ ∧
      payload w1.mem = Function.update (payload w.mem) w.brk (some (id, node_name id)) ∧
      w1.mem.rcu_demo_list = w.mem.rcu_demo_list := by
  rw [prepare_eq] at hp
  have hp := Option.some.inj hp
  subst hp
  refine ⟨⟨h.1, seg_congr ?_ h.2.1, seg_congr ?_ h.2.2⟩, by simp, ?_, rfl⟩
  · intro p hp
    cases p with
    | head => simp [Mem.nxt, Mem.load]
    | poison2 => simp [Mem.nxt, Mem.load]
    | node j =>
      have : j ≠ w.brk := by
        intro hh; subst hh; simp at hp; exact hk hp
      simp [Mem.nxt, Mem.load, this]
  · intro p hp
    cases p with
    | head => simp [Mem.prv, Mem.load]
    | poison2 => simp [Mem.prv, Mem.load]
    | node j =>
      have : j ≠ w.brk := by
        intro hh; subst hh; simp at hp; exact hk hp
      simp [Mem.prv, Mem.load, this]
  · funext j
    by_cases hj : j = w.brk
    · subst hj; simp [payload]
    · simp [payload, hj, Function.update]

theorem publish_spec {id : Int} {w : World} {l : List Nat} (h : Ring w.mem l) (hk : w.brk ∉ l) :
    ∃ w1 w2, rcu_writer_prepare id w = some w1 ∧ rcu_writer_link w.brk w1 = some w2 ∧
      rcu_writer_publish id w = some w2 ∧ Ring w1.mem l ∧
      payload w1.mem = Function.update (payload w.mem) w.brk (some (id, node_name id)) ∧
      Ring w2.mem (w.brk :: l) ∧ payload w2.mem = payload w1.mem ∧
      w2.mem.nxt (.node w.brk) = some w.mem.rcu_demo_list.next ∧
      w2.brk = w.brk + 1 ∧
      w1.trace = w.trace ++
        [.kmalloc (some w.brk), .set_id w.brk id, .set_name w.brk] ∧
      w2.trace = w1.trace ++ [.list_add_rcu w.brk] := by
  obtain ⟨w1, hw1⟩ : ∃ w1, rcu_writer_prepare id w = some w1 := ⟨_, prepare_eq id w⟩
  obtain ⟨hr1, hs1, hy1, hh1⟩ := prepare_ring hw1 h hk
  obtain ⟨m2, ha, hr2, hy2, hn2⟩ := ring_add hr1 hk (by simp [hs1])
  have hb : w1.brk = w.brk + 1 ∧ w1.trace = w.trace ++
      [.kmalloc (some w.brk), .set_id w.brk id, .set_name w.brk] := by
    rw [prepare_eq] at hw1
    have := Option.some.inj hw1
    subst this
    exact ⟨rfl, rfl⟩
  refine ⟨w1, { w1 with mem := m2, trace := w1.trace ++ [.list_add_rcu w.brk] }, hw1, ?_, ?_,
    hr1, hy1, hr2, hy2, ?_, hb.1, hb.2, rfl⟩
  · simp [rcu_writer_link, ha]
  · simp [rcu_writer_publish, hw1, rcu_writer_link, ha]
  · rw [hn2, hh1]

/-! ## Module unload on a well-formed ring -/

theorem ring_cursor {m : Mem} {l : List Nat} (h : Ring m l) :
    m.rcu_demo_list.next = (l.map Ptr.node).headD .head ∧
      ∃ e, m.load ((l.map Ptr.node).headD .head) = some e ∧
        e.next = ((l.drop 1).map Ptr.node).headD .head := by
  refine ⟨ring_head_next h, ?_⟩
  cases l with
  | nil =>
    refine ⟨m.rcu_demo_list, rfl, ?_⟩
    simpa using ring_head_next h
  | cons k l =>
    have h1 : Seg m.nxt .head ([Ptr.head] ++ Ptr.node k :: l.map Ptr.node) .head := by
      simpa using h.2.1
    obtain ⟨n, hn, hq⟩ := nxt_node (seg_next h1)
    exact ⟨n.list, by simp [Mem.load, hn], by simpa using hq⟩

theorem exit_loop_spec (l : List Nat) : ∀ (w : World) (fuel : Nat), Ring w.mem l →
    l.length < fuel →
    ∃ w1, rcu_demo_exit_loop fuel w ((l.map Ptr.node).headD .head)
        (((l.drop 1).map Ptr.node).headD .head) = some w1 ∧
      Ring w1.mem [] ∧ w1.brk = w.brk ∧
      w1.trace = w.trace ++ l.flatMap (fun k => [Event.list_del_rcu k, Event.kfree k]) ∧
      ∀ j, payload w1.mem j = if j ∈ l then none else payload w.mem j := by
  induction l with
  | nil =>
    intro w fuel h hf
    cases fuel with
    | zero => simp at hf
    | succ f => exact ⟨w, rfl, h, rfl, by simp, by simp⟩
  | cons k l ih =>
    intro w fuel h hf
    cases fuel with
    | zero => simp at hf
    | succ f =>
      have hk : k ∉ l := (List.nodup_cons.mp h.1).1
      obtain ⟨m1, hd, hr1, hy1, _⟩ := @ring_del w.mem [] l k h
      have hlive : (m1.slab k).isSome := by
        have h1 := ring_live h (k := k) (by simp)
        have h2 := congrFun hy1 k
        simp only [payload] at h2
        cases hh : m1.slab k with
        | none => rw [hh] at h2; cases hw : w.mem.slab k <;> simp [hw] at h2 h1
        | some n => rfl
      rw [List.nil_append] at hr1
      obtain ⟨m2, hf2, hr2, hy2⟩ := ring_kfree hr1 hk hlive
      obtain ⟨_, e, he, hen⟩ := ring_cursor hr2
      obtain ⟨w1, hw1, hring, hbrk, htr, hpay⟩ :=
        ih { w with mem := m2, trace := w.trace ++ [.list_del_rcu k, .kfree k] } f hr2
          (by simpa using hf)
      refine ⟨w1, ?_, hring, hbrk, ?_, ?_⟩
      · simp only [List.map_cons, List.headD_cons, List.drop_succ_cons, List.drop_zero,
          rcu_demo_exit_loop, hd, hf2]
        rw [he]
        simp only [hen]
        exact hw1
      · rw [htr]; simp
      · intro j
        rw [hpay j]
        simp only [hy2, hy1, Function.update, List.mem_cons]
        by_cases hj : j = k
        · subst hj; simp [hk]
        · simp [hj]

theorem exit_spec {w : World} {l : List Nat} (fuel : Nat) (reader_ok writer_ok : Bool)
    (h : Ring w.mem l) (hf : l.length < fuel) :
    ∃ w1, rcu_demo_exit fuel reader_ok writer_ok w = some w1 ∧ Ring w1.mem [] ∧
      w1.trace = w.trace ++ (if reader_ok then [Event.kthread_stop_reader] else []) ++
        (if writer_ok then [Event.kthread_stop_writer] else []) ++ [Event.synchronize_rcu] ++
        l.flatMap (fun k => [Event.list_del_rcu k, Event.kfree k]) ∧
      ∀ j, payload w1.mem j = if j ∈ l then none else payload w.mem j := by
  obtain ⟨hn, e, he, hen⟩ := ring_cursor h
  obtain ⟨w1, hw1, hring, _, htr, hpay⟩ := exit_loop_spec l
    { w with trace := w.trace ++ (if reader_ok then [Event.kthread_stop_reader] else []) ++
        (if writer_ok then [Event.kthread_stop_writer] else []) ++ [Event.synchronize_rcu] }
    fuel h hf
  refine ⟨w1, ?_, hring, htr, hpay⟩
  simp only [rcu_demo_exit, hn]
  rw [he]
  simp only [hen]
  exact hw1

theorem count_kfree_flatMap (l : List Nat) (hnd : l.Nodup) (k : Nat) :
    (l.flatMap (fun j => [Event.list_del_rcu j, Event.kfree j])).count (Event.kfree k) =
      if k ∈ l then 1 else 0 := by
  induction l with
  | nil => simp
  | cons a l ih =>
    have ha := (List.nodup_cons.mp hnd).1
    rw [List.flatMap_cons, List.count_append, ih (List.nodup_cons.mp hnd).2]
    by_cases hk : a = k
    · subst hk; simp [ha]
    · have hk1 : ¬ k = a := fun hh => hk hh.symm
      simp [List.count_cons, hk, hk1]

theorem sublist_flatMap_pair (l : List Nat) (k : Nat) (hk : k ∈ l) :
    List.Sublist [Event.list_del_rcu k, Event.kfree k]
      (l.flatMap (fun j => [Event.list_del_rcu j, Event.kfree j])) := by
  obtain ⟨l1, l2, rfl⟩ := List.append_of_mem hk
  rw [List.flatMap_append, List.flatMap_cons]
  exact List.sublist_append_of_sublist_right (List.sublist_append_left _ _)

/-! ## The invariant of the writer loop -/

theorem fab_append_nofree {t c : List Event} (h : FreedAfterBarrier t)
    (hc : ∀ k, Event.kfree k ∉ c) : FreedAfterBarrier (t ++ c) := by
  intro k t1 t2 he
  rcases List.append_eq_append_iff.mp he with ⟨a, _, h2⟩ | ⟨c1, h1, h2⟩
  · exact absurd (by rw [h2]; simp) (hc k)
  · cases c1 with
    | nil => exact absurd (by rw [← List.nil_append c, ← h2]; simp) (hc k)
    | cons x c1 =>
      have hx : Event.kfree k = x := by injection h2
      subst hx
      exact h k t1 c1 h1

theorem fab_append_free {t : List Event} {k0 : Nat} (h : FreedAfterBarrier t)
    (hs : List.Sublist [Event.list_del_rcu k0, Event.synchronize_rcu] t) :
    FreedAfterBarrier (t ++ [Event.kfree k0]) := by
  intro k t1 t2 he
  rcases List.eq_nil_or_concat t2 with rfl | ⟨t3, x, rfl⟩
  · have := List.append_inj' he rfl
    have hk : Event.kfree k0 = Event.kfree k := by simpa using this.2
    injection hk with hk
    subst hk
    rw [← this.1]; exact hs
  · have he1 : t ++ [Event.kfree k0] = (t1 ++ Event.kfree k :: t3) ++ [x] := by
      rw [he]; simp
    have := List.append_inj' he1 rfl
    exact h k t1 t3 this.1

theorem fab_append_retire {t : List Event} (k0 : Nat) (h : FreedAfterBarrier t) :
    FreedAfterBarrier (t ++ [Event.rcu_read_lock, Event.list_del_rcu k0, Event.rcu_read_unlock,
      Event.synchronize_rcu, Event.kfree k0]) := by
  have h1 : FreedAfterBarrier (t ++ [Event.rcu_read_lock, Event.list_del_rcu k0,
      Event.rcu_read_unlock, Event.synchronize_rcu]) :=
    fab_append_nofree h (by intro k; simp)
  have h2 := @fab_append_free _ k0 h1 (List.sublist_append_of_sublist_right
    (List.Sublist.cons _ (List.Sublist.cons₂ _ (List.Sublist.cons _
      (List.Sublist.cons₂ _ List.Sublist.slnil)))))
  simpa using h2

theorem length_le_of_bound {l : List Nat} {n : Nat} (hnd : l.Nodup) (hb : ∀ k ∈ l, k < n) :
    l.length ≤ n := by
  have h1 : l.toFinset ⊆ Finset.range n := by
    intro k hk
    exact Finset.mem_range.mpr (hb k (List.mem_toFinset.mp hk))
  have h2 := Finset.card_le_card h1
  rwa [List.toFinset_card_of_nodup hnd, Finset.card_range] at h2

theorem live_of_payload {m m1 : Mem} {k : Nat} (h : payload m1 k = payload m k) :
    (m1.slab k).isSome = (m.slab k).isSome := by
  simp only [payload] at h
  cases h1 : m1.slab k <;> cases h2 : m.slab k <;> simp [h1, h2] at h ⊢

theorem inv_init : Inv World.init [] := by
  refine ⟨by decide, ?_, ?_, ?_, ?_, ?_⟩
  · intro k; simp [World.init, Mem.init]
  · intro k hk; simp at hk
  · intro k t1 t2 he
    have : Event.kfree k ∈ ([] : List Event) := by
      have h1 : World.init.trace = [] := rfl
      rw [← h1, he]; simp
    simp at this
  · intro k; simp [World.init]
  · intro k _; simp [World.init]

theorem cycle_inv {w : World} {l : List Nat} (fuel : Nat) (a : Bool) (id : Int)
    (hI : Inv w l) (hf : w.brk + 1 < fuel) :
    ∃ w1 id1 l1, rcu_writer_cycle fuel a w id = some (w1, id1) ∧ Inv w1 l1 ∧
      w1.brk ≤ w.brk + 1 := by
  have hlen := length_le_of_bound hI.ring.1 hI.bound
  cases a with
  | false =>
    refine ⟨_, id, l, rfl, ⟨hI.ring, hI.live, hI.bound, ?_, ?_, ?_⟩, by simp⟩
    · exact fab_append_nofree hI.fab (by intro k; simp)
    · intro k
      have := hI.once k
      simpa [List.count_append, List.count_cons] using this
    · intro k hk
      have := hI.fresh k hk
      simpa [List.count_append, List.count_cons] using this
  | true =>
    have hk : w.brk ∉ l := fun hh => Nat.lt_irrefl _ (hI.bound _ hh)
    obtain ⟨w1, w2, _, _, hpub, _, hy1, hr2, hy2, _, hb2, ht1, ht2⟩ :=
      @publish_spec id w l hI.ring hk
    have hpay2 : payload w2.mem = Function.update (payload w.mem) w.brk (some (id, node_name id)) := by
      rw [hy2, hy1]
    have htr2 : w2.trace = w.trace ++ [.kmalloc (some w.brk), .set_id w.brk id, .set_name w.brk,
        .list_add_rcu w.brk] := by rw [ht2, ht1]; simp
    have hlive2 : ∀ k, (w2.mem.slab k).isSome ↔ k ∈ w.brk :: l := by
      intro k
      by_cases hkb : k = w.brk
      · subst hkb
        have := congrFun hpay2 w.brk
        simp only [payload, Function.update, if_true] at this
        cases hh : w2.mem.slab w.brk with
        | none => rw [hh] at this; simp at this
        | some n => simp
      · have := congrFun hpay2 k
        simp only [Function.update, hkb, dite_false] at this
        rw [live_of_payload this, hI.live k]
        simp [hkb]
    have hbound2 : ∀ k ∈ w.brk :: l, k < w2.brk := by
      intro k hk
      rw [hb2]
      rcases List.mem_cons.mp hk with h1 | h1
      · omega
      · have := hI.bound k h1; omega
    have hfab2 : FreedAfterBarrier w2.trace := by
      rw [htr2]; exact fab_append_nofree hI.fab (by intro k; simp)
    have honce2 : ∀ k, w2.trace.count (.list_del_rcu k) = w2.trace.count (.kfree k) ∧
        w2.trace.count (.kfree k) ≤ 1 := by
      intro k
      have := hI.once k
      rw [htr2]
      simpa [List.count_append, List.count_cons] using this
    have hfresh2 : ∀ k, k ∈ w.brk :: l ∨ w.brk ≤ k → w2.trace.count (.list_del_rcu k) = 0 := by
      intro k hk
      have : k ∈ l ∨ w.brk ≤ k := by
        rcases hk with h1 | h1
        · rcases List.mem_cons.mp h1 with h2 | h2
          · right; omega
          · left; exact h2
        · right; exact h1
      have := hI.fresh k this
      rw [htr2]
      simpa [List.count_append, List.count_cons] using this
    have hlen2 : (w.brk :: l).length < fuel := by simp; omega
    by_cases hid : id > 2
    · by_cases hex : ∃ k ∈ w.brk :: l, id_of w2.mem k = some (id - 2)
      · obtain ⟨k0, hk0, hp0⟩ := hex
        obtain ⟨k, l1, l2, hno, hkp, hl, _⟩ :=
          List.exists_of_eraseP (p := fun k => decide (id_of w2.mem k = some (id - 2))) hk0
            (by simpa using hp0)
        have hno1 : ∀ b ∈ l1, id_of w2.mem b ≠ some (id - 2) := fun b hb => by
          simpa using hno b hb
        have hk1 : id_of w2.mem k = some (id - 2) := by simpa using hkp
        rw [hl] at hr2 hlen2
        obtain ⟨m1, m2, _, _, _, _, _, _, hr3, hy3, hret⟩ := retire_some hid hr2 hlen2 hno1 hk1
        have hkin : k ∈ w.brk :: l := by rw [hl]; simp
        have hsub : ∀ j ∈ l1 ++ l2, j ∈ w.brk :: l ∧ j ≠ k := by
          intro j hj
          have h1 := List.nodup_append.mp hr2.1
          refine ⟨by rw [hl]; rcases List.mem_append.mp hj with h2 | h2 <;> simp [h2], ?_⟩
          intro hh
          subst hh
          rcases List.mem_append.mp hj with h2 | h2
          · exact h1.2.2 h2 (List.mem_cons_self _ _)
          · exact (List.nodup_cons.mp h1.2.1).1 h2
        have hk0cnt : w2.trace.count (.list_del_rcu k) = 0 := hfresh2 k (Or.inl hkin)
        refine ⟨{ w2 with mem := m2, trace := w2.trace ++ [.rcu_read_lock, .list_del_rcu k,
          .rcu_read_unlock, .synchronize_rcu, .kfree k] }, wrap32 (id + 1), l1 ++ l2, ?_,
          ⟨hr3, ?_, ?_, ?_, ?_, ?_⟩, ?_⟩
        · simp [rcu_writer_cycle, hpub, hret]
        · intro j
          show (m2.slab j).isSome ↔ _
          by_cases hjk : j = k
          · subst hjk
            have := congrFun hy3 j
            simp only [payload, Function.update, if_true] at this
            constructor
            · intro hh
              cases h3 : m2.slab j with
              | none => rw [h3] at hh; simp at hh
              | some n => rw [h3] at this; simp at this
            · intro hh; exact absurd rfl (hsub j hh).2
          · have := congrFun hy3 j
            simp only [Function.update, hjk, dite_false] at this
            rw [live_of_payload this, hlive2 j, hl]
            simp [hjk]
        · intro j hj
          exact hbound2 j (hsub j hj).1
        · exact fab_append_retire k hfab2
        · intro j
          have := honce2 j
          by_cases hjk : k = j
          · subst hjk
            have h0 := hk0cnt
            have h1 : w2.trace.count (.kfree k) = 0 := by rw [← this.1]; exact h0
            simp [List.count_append, List.count_cons, h0, h1]
          · simpa [List.count_append, List.count_cons, hjk] using this
        · intro j hj
          have hjk : k ≠ j := by
            rcases hj with h1 | h1
            · exact fun hh => (hsub j h1).2 hh.symm
            · intro hh
              have := hbound2 k hkin
              show False
              have h2 : w2.brk ≤ j := h1
              omega
          have : w2.trace.count (.list_del_rcu j) = 0 := by
            apply hfresh2
            rcases hj with h1 | h1
            · exact Or.inl (hsub j h1).1
            · right
              have h2 : w2.brk ≤ j := h1
              omega
          simpa [List.count_append, List.count_cons, hjk] using this
        · show w2.brk ≤ _
          omega
      · have hno : ∀ k ∈ w.brk :: l, id_of w2.mem k ≠ some (id - 2) :=
          fun k hk hh => hex ⟨k, hk, hh⟩
        have hret := retire_none hid hr2 hlen2 hno
        refine ⟨{ w2 with trace := w2.trace ++ [.rcu_read_lock, .rcu_read_unlock] },
          wrap32 (id + 1), w.brk :: l, ?_, ⟨hr2, hlive2, hbound2, ?_, ?_, ?_⟩, ?_⟩
        · simp [rcu_writer_cycle, hpub, hret]
        · exact fab_append_nofree hfab2 (by intro k; simp)
        · intro k
          have := honce2 k
          simpa [List.count_append, List.count_cons] using this
        · intro k hk
          have : w2.trace.count (.list_del_rcu k) = 0 := by
            apply hfresh2
            rcases hk with h1 | h1
            · exact Or.inl h1
            · right
              have h2 : w2.brk ≤ k := h1
              omega
          simpa [List.count_append, List.count_cons] using this
        · show w2.brk ≤ _
          omega
    · refine ⟨w2, wrap32 (id + 1), w.brk :: l, ?_,
        ⟨hr2, hlive2, hbound2, hfab2, honce2, ?_⟩, by omega⟩
      · simp [rcu_writer_cycle, hpub, retire_skip fuel id w2 hid]
      · intro k hk
        apply hfresh2
        rcases hk with h1 | h1
        · exact Or.inl h1
        · right; omega

theorem loop_inv (fuel : Nat) (r : List Bool) : ∀ (w : World) (l : List Nat) (id : Int),
    Inv w l → w.brk + r.length < fuel →
    ∃ w1 id1 l1, rcu_writer_loop fuel r w id = some (w1, id1) ∧ Inv w1 l1 := by
  induction r with
  | nil => intro w l id hI _; exact ⟨w, id, l, rfl, hI⟩
  | cons a r ih =>
    intro w l id hI hf
    obtain ⟨w1, id1, l1, hc, hI1, hb⟩ := cycle_inv fuel a id hI (by simp at hf; omega)
    obtain ⟨w2, id2, l2, hl, hI2⟩ := ih w1 l1 id1 hI1 (by simp at hf; omega)
    exact ⟨w2, id2, l2, by simp [rcu_writer_loop, hc, hl], hI2⟩

/-! ## A successful cycle in full; the chain never shrinks over a cycle -/

theorem id_of_eq_payload (m : Mem) (k : Nat) : id_of m k = (payload m k).map Prod.fst := by
  simp only [id_of, payload]
  cases m.slab k <;> rfl

theorem ring_unique {m : Mem} {l1 l2 : List Nat} (h1 : Ring m l1) (h2 : Ring m l2) : l1 = l2 := by
  have e1 := chain_ring h1 (Nat.lt_succ_of_le (Nat.le_max_left l1.length l2.length))
  have e2 := chain_ring h2 (Nat.lt_succ_of_le (Nat.le_max_right l1.length l2.length))
  rw [e1] at e2
  exact Option.some.inj e2

theorem cycle_publishes {w : World} {l : List Nat} (fuel : Nat) (id : Int)
    (h : Ring w.mem l) (hk : w.brk ∉ l) (hf : l.length + 1 < fuel) :
    ∃ w2 t, rcu_writer_cycle fuel true w id = some (w2, wrap32 (id + 1)) ∧
      Ring w2.mem (w.brk ::
        (if id > 2 then l.eraseP (fun k => decide (id_of w.mem k = some (id - 2))) else l)) ∧
      payload w2.mem w.brk = some (id, node_name id) ∧
      w2.brk = w.brk + 1 ∧
      w2.trace = w.trace ++ [.kmalloc (some w.brk), .set_id w.brk id, .set_name w.brk,
        .list_add_rcu w.brk] ++ t := by
  obtain ⟨w1, wp, _, _, hpub, _, hy1, hr2, hy2, _, hb2, ht1, ht2⟩ := @publish_spec id w l h hk
  have hpay : payload wp.mem = Function.update (payload w.mem) w.brk (some (id, node_name id)) := by
    rw [hy2, hy1]
  have htr : wp.trace = w.trace ++ [.kmalloc (some w.brk), .set_id w.brk id, .set_name w.brk,
      .list_add_rcu w.brk] := by rw [ht2, ht1]; simp
  have hnew : payload wp.mem w.brk = some (id, node_name id) := by
    rw [hpay]; simp [Function.update]
  have hold : ∀ k ∈ l, id_of wp.mem k = id_of w.mem k := by
    intro k hkl
    have hne : k ≠ w.brk := fun hh => hk (hh ▸ hkl)
    rw [id_of_eq_payload, id_of_eq_payload, hpay]
    simp [Function.update, hne]
  have hidnew : id_of wp.mem w.brk ≠ some (id - 2) := by
    rw [id_of_eq_payload, hnew]
    simp only [Option.map_some', ne_eq, Option.some.injEq]
    omega
  have hlen : (w.brk :: l).length < fuel := by simpa using hf
  by_cases hid : id > 2
  · simp only [hid, if_true]
    by_cases hex : ∃ k ∈ l, id_of w.mem k = some (id - 2)
    · obtain ⟨k0, hk0, hp0⟩ := hex
      obtain ⟨k, l1, l2, hno, hkp, hl, he⟩ :=
        List.exists_of_eraseP (p := fun k => decide (id_of w.mem k = some (id - 2))) hk0
          (by simpa using hp0)
      have hkl : k ∈ l := by rw [hl]; simp
      have hno1 : ∀ b ∈ w.brk :: l1, id_of wp.mem b ≠ some (id - 2) := by
        intro b hb
        rcases List.mem_cons.mp hb with rfl | hb1
        · exact hidnew
        · rw [hold b (by rw [hl]; simp [hb1])]
          simpa using hno b hb1
      have hk1 : id_of wp.mem k = some (id - 2) := by
        rw [hold k hkl]; simpa using hkp
      have hr2a : Ring wp.mem ((w.brk :: l1) ++ k :: l2) := by
        rw [hl] at hr2; simpa using hr2
      obtain ⟨m1, m2, _, _, _, _, _, _, hr3, hy3, hret⟩ :=
        @retire_some fuel id wp (w.brk :: l1) l2 k hid hr2a
          (by rw [hl] at hlen; simpa using hlen) hno1 hk1
      refine ⟨{ wp with mem := m2, trace := wp.trace ++ [.rcu_read_lock, .list_del_rcu k,
          .rcu_read_unlock, .synchronize_rcu, .kfree k] },
        [.rcu_read_lock, .list_del_rcu k, .rcu_read_unlock, .synchronize_rcu, .kfree k],
        by simp [rcu_writer_cycle, hpub, hret], ?_, ?_, hb2, ?_⟩
      · rw [he]; simpa using hr3
      · show payload m2 w.brk = _
        have hne : w.brk ≠ k := fun hh => hk (hh ▸ hkl)
        rw [hy3]; simp [Function.update, hne, hnew]
      · show wp.trace ++ _ = _
        rw [htr]
    · have hno : ∀ k ∈ l, id_of w.mem k ≠ some (id - 2) := fun k hkl hh => hex ⟨k, hkl, hh⟩
      have hno1 : ∀ b ∈ w.brk :: l, id_of wp.mem b ≠ some (id - 2) := by
        intro b hb
        rcases List.mem_cons.mp hb with rfl | hb1
        · exact hidnew
        · rw [hold b hb1]; exact hno b hb1
      have hret := retire_none hid hr2 hlen hno1
      have he : l.eraseP (fun k => decide (id_of w.mem k = some (id - 2))) = l :=
        List.eraseP_of_forall_not (fun k hkl => by simpa using hno k hkl)
      refine ⟨{ wp with trace := wp.trace ++ [.rcu_read_lock, .rcu_read_unlock] },
        [.rcu_read_lock, .rcu_read_unlock],
        by simp [rcu_writer_cycle, hpub, hret], ?_, hnew, hb2, ?_⟩
      · rw [he]; exact hr2
      · show wp.trace ++ _ = _
        rw [htr]
  · simp only [hid, if_false]
    exact ⟨wp, [], by simp [rcu_writer_cycle, hpub, retire_skip fuel id wp hid], hr2, hnew, hb2,
      by rw [htr]; simp⟩

theorem cycle_grow {w : World} {l : List Nat} (fuel : Nat) (id : Int)
    (hI : Inv w l) (hf : w.brk + 1 < fuel) :
    ∃ w1 l1, rcu_writer_cycle fuel true w id = some (w1, wrap32 (id + 1)) ∧ Inv w1 l1 ∧
      w1.brk = w.brk + 1 ∧ l.length ≤ l1.length ∧ (¬ id > 2 → l1.length = l.length + 1) ∧
      Event.set_id w.brk id ∈ w1.trace := by
  have hlen := length_le_of_bound hI.ring.1 hI.bound
  have hk : w.brk ∉ l := fun hh => Nat.lt_irrefl _ (hI.bound _ hh)
  obtain ⟨w1, id1, l1, hc, hI1, _⟩ := cycle_inv fuel true id hI hf
  obtain ⟨w2, t, hc2, hr2, _, hb2, ht2⟩ := cycle_publishes fuel id hI.ring hk (by omega)
  rw [hc] at hc2
  have hw : w1 = w2 := (Prod.mk.inj (Option.some.inj hc2)).1
  subst hw
  have hl1 := ring_unique hI1.ring hr2
  refine ⟨w1, l1, hc.trans hc2, hI1, hb2, ?_, ?_, ?_⟩
  · rw [hl1]
    by_cases hid : id > 2
    · simp only [hid, if_true, List.length_cons, List.length_eraseP]
      split <;> omega
    · simp [hid]
  · intro hid
    rw [hl1]; simp [hid]
  · rw [ht2]; simp

theorem loop_single (fuel : Nat) (a : Bool) (w : World) (id : Int) :
    rcu_writer_loop fuel [a] w id = rcu_writer_cycle fuel a w id := by
  simp only [rcu_writer_loop]
  cases rcu_writer_cycle fuel a w id <;> rfl

theorem wrap32_add (x : Int) (n : Nat) :
    wrap32 (wrap32 (x + 1) + (n : Int)) = wrap32 (x + ((n + 1 : Nat) : Int)) := by
  unfold wrap32; push_cast; omega

theorem loop_grow (fuel : Nat) (n : Nat) : ∀ (w : World) (l : List Nat) (id : Int),
    Inv w l → -2147483648 ≤ id → id < 2147483648 → w.brk + n < fuel →
    ∃ w1 l1, rcu_writer_loop fuel (List.replicate n true) w id =
        some (w1, wrap32 (id + (n : Int))) ∧
      Inv w1 l1 ∧ l.length ≤ l1.length ∧ w1.brk = w.brk + n := by
  induction n with
  | zero =>
    intro w l id hI h1 h2 _
    have e : wrap32 id = id := by unfold wrap32; omega
    exact ⟨w, l, by simp [rcu_writer_loop, e], hI, le_refl _, rfl⟩
  | succ n ih =>
    intro w l id hI h1 h2 hf
    obtain ⟨w1, l1, hc, hI1, hb1, hlen1, _, _⟩ := cycle_grow fuel id hI (by omega)
    obtain ⟨w2, l2, hl, hI2, hlen2, hb2⟩ := ih w1 l1 (wrap32 (id + 1)) hI1
      (by unfold wrap32; omega) (by unfold wrap32; omega) (by omega)
    refine ⟨w2, l2, ?_, hI2, by omega, by omega⟩
    rw [List.replicate_succ]
    simp only [rcu_writer_loop, hc, hl, wrap32_add]

/-! ## The first pass of the id counter -/

theorem wrap32_eq {x : Int} (h1 : -2147483648 ≤ x) (h2 : x < 2147483648) : wrap32 x = x := by
  unfold wrap32; omega

theorem loop_append (fuel : Nat) (r1 r2 : List Bool) : ∀ (w : World) (id : Int),
    rcu_writer_loop fuel (r1 ++ r2) w id =
      (rcu_writer_loop fuel r1 w id).bind (fun p => rcu_writer_loop fuel r2 p.1 p.2) := by
  induction r1 with
  | nil => intro w id; rfl
  | cons a r1 ih =>
    intro w id
    simp only [List.cons_append, rcu_writer_loop]
    cases h : rcu_writer_cycle fuel a w id with
    | none => rfl
    | some p => exact ih p.1 p.2

theorem fp_init : FirstPass World.init 1 0 := by
  refine ⟨by decide, rfl, by decide, ?_, rfl, ?_, ?_⟩
  · intro k; simp [payload, World.init, Mem.init, window]
  · intro k v; simp [World.init]
  · intro k; simp [World.init]

theorem fp_fail {w : World} {id : Int} {c : Nat} (h : FirstPass w id c) :
    FirstPass { w with trace := w.trace ++ [.kmalloc none] } id c := by
  refine ⟨h.ring, h.brk, h.idv, h.pay, ?_, ?_, ?_⟩
  · have := h.pub
    simpa [published, List.filterMap_append] using this
  · intro k v
    have := h.ids k v
    simpa using this
  · intro k
    have := h.freed k
    simpa using this

theorem id_of_payload {m : Mem} {k : Nat} {v : Int} {s : String}
    (h : payload m k = some (v, s)) : id_of m k = some v := by
  simp only [payload] at h
  simp only [id_of]
  cases hh : m.slab k with
  | none => rw [hh] at h; simp at h
  | some n =>
    rw [hh] at h
    simp only [Option.map_some', Option.some.injEq, Prod.mk.injEq] at h
    simp [h.1]

theorem fp_step {w : World} {id : Int} {c : Nat} (fuel : Nat) (h : FirstPass w id c)
    (hc : c + 1 < 2147483648) (hf : 3 < fuel) :
    ∃ w1, rcu_writer_cycle fuel true w id = some (w1, wrap32 (id + 1)) ∧
      FirstPass w1 (wrap32 (id + 1)) (c + 1) ∧
      w1.trace = w.trace ++ [.kmalloc (some c), .set_id c ((c : Int) + 1), .set_name c,
        .list_add_rcu c] ++
        (if c < 2 then [] else [.rcu_read_lock, .list_del_rcu (c - 2), .rcu_read_unlock,
          .synchronize_rcu, .kfree (c - 2)]) := by
  have hid : id = (c : Int) + 1 := by
    rw [h.idv]; exact wrap32_eq (by omega) (by omega)
  have hwin : ∀ k ∈ window c, k < c := by
    intro k hk
    match c, hk with
    | 1, hk => simp [window] at hk; omega
    | c + 2, hk => simp [window] at hk; omega
  have hk : w.brk ∉ window c := by
    rw [h.brk]; exact fun hh => Nat.lt_irrefl _ (hwin _ hh)
  obtain ⟨w1, w2, _, _, hpub, _, hy1, hr2, hy2, _, hb2, ht1, ht2⟩ :=
    @publish_spec id w (window c) h.ring hk
  rw [h.brk] at hr2 hb2 ht1 ht2 hy1
  have hpay2 : ∀ k, payload w2.mem k =
      if k ∈ c :: window c then some ((k : Int) + 1, node_name ((k : Int) + 1)) else none := by
    intro k
    rw [hy2, hy1]
    by_cases hkc : k = c
    · subst hkc; simp [Function.update, hid]
    · simp [Function.update, hkc, h.pay k]
  have htr2 : w2.trace = w.trace ++ [.kmalloc (some c), .set_id c ((c : Int) + 1), .set_name c,
      .list_add_rcu c] := by rw [ht2, ht1, hid]; simp
  have hpub2 : published w2.trace = (List.range (c + 1)).map (fun (i : Nat) => (i : Int) + 1) := by
    rw [htr2, List.range_succ, List.map_append, ← h.pub]
    simp [published, List.filterMap_append]
  have hids2 : ∀ k v, Event.set_id k v ∈ w2.trace ↔ k < c + 1 ∧ v = (k : Int) + 1 := by
    intro k v
    rw [htr2]
    have := h.ids k v
    simp only [List.mem_append, this, List.mem_cons, Event.set_id.injEq, List.mem_singleton,
      List.mem_nil_iff, or_false, false_or, reduceCtorEq]
    constructor
    · rintro (⟨h1, h2⟩ | ⟨h1, h2⟩)
      · exact ⟨by omega, h2⟩
      · subst h1; exact ⟨by omega, h2⟩
    · rintro ⟨h1, h2⟩
      by_cases hkc : k = c
      · right; exact ⟨hkc, by rw [h2, hkc]⟩
      · left; exact ⟨by omega, h2⟩
  match c, h, hc, hid, hk, hr2, hb2, hpay2, htr2, hpub2, hids2, hpub with
  | 0, h, hc, hid, hk, hr2, hb2, hpay2, htr2, hpub2, hids2, hpub =>
    have hsmall : ¬ id > 2 := by rw [hid]; simp
    refine ⟨w2, by simp [rcu_writer_cycle, hpub, retire_skip fuel id w2 hsmall],
      ⟨hr2, hb2, by rw [hid]; simp, ?_, hpub2, hids2, ?_⟩, by simpa using htr2⟩
    · intro k; simpa [window] using hpay2 k
    · intro k
      rw [htr2]
      have := h.freed k
      simpa using this
  | 1, h, hc, hid, hk, hr2, hb2, hpay2, htr2, hpub2, hids2, hpub =>
    have hsmall : ¬ id > 2 := by rw [hid]; simp
    refine ⟨w2, by simp [rcu_writer_cycle, hpub, retire_skip fuel id w2 hsmall],
      ⟨hr2, hb2, by rw [hid]; simp, ?_, hpub2, hids2, ?_⟩, by simpa using htr2⟩
    · intro k; simpa [window] using hpay2 k
    · intro k
      rw [htr2]
      have := h.freed k
      simpa using this
  | c + 2, h, hc, hid, hk, hr2, hb2, hpay2, htr2, hpub2, hids2, hpub =>
    have hbig : id > 2 := by rw [hid]; push_cast; omega
    have hr2a : Ring w2.mem ([c + 2, c + 1] ++ c :: []) := hr2
    have hpay3 : ∀ b ∈ [c + 2, c + 1, c], id_of w2.mem b = some ((b : Int) + 1) := by
      intro b hb
      have hb1 : b ∈ (c + 2) :: window (c + 2) := by simpa [window] using hb
      have hp := hpay2 b
      rw [if_pos hb1] at hp
      exact id_of_payload hp
    have hno : ∀ b ∈ [c + 2, c + 1], id_of w2.mem b ≠ some (id - 2) := by
      intro b hb
      have hb1 : b = c + 2 ∨ b = c + 1 := by simpa using hb
      rw [hpay3 b (by rcases hb1 with rfl | rfl <;> simp), hid]
      simp only [ne_eq, Option.some.injEq]
      rcases hb1 with rfl | rfl <;> push_cast <;> omega
    have hkc : id_of w2.mem c = some (id - 2) := by
      rw [hpay3 c (by simp), hid]
      simp only [Option.some.injEq]; push_cast; omega
    obtain ⟨m1, m2, _, _, _, _, _, _, hr3, hy3, hret⟩ :=
      @retire_some fuel id w2 [c + 2, c + 1] [] c hbig hr2a (by simp; omega) hno hkc
    refine ⟨{ w2 with mem := m2, trace := w2.trace ++ [.rcu_read_lock, .list_del_rcu c,
      .rcu_read_unlock, .synchronize_rcu, .kfree c] },
      by simp [rcu_writer_cycle, hpub, hret], ⟨hr3, hb2, by rw [hid]; simp, ?_, ?_, ?_, ?_⟩, ?_⟩
    · intro k
      show payload m2 k = _
      rw [hy3]
      by_cases hkk : k = c
      · subst hkk
        have h1 : ¬ (k = k + 1 + 1) := by omega
        simp [Function.update, window, h1]
      · simp only [Function.update, hkk, dite_false, hpay2 k]
        simp [window, hkk]
    · show published (w2.trace ++ _) = _
      rw [← hpub2]
      simp [published, List.filterMap_append]
    · intro k v
      show Event.set_id k v ∈ w2.trace ++ _ ↔ _
      rw [← hids2 k v]
      simp
    · intro k
      show Event.kfree k ∈ w2.trace ++ _ ↔ _
      rw [htr2]
      have := h.freed k
      simp only [List.mem_append, this, List.mem_cons, List.mem_singleton, Event.kfree.injEq,
        List.mem_nil_iff, or_false, false_or, reduceCtorEq]
      omega
    · show w2.trace ++ _ = _
      rw [htr2]
      simp

theorem fp_loop (fuel : Nat) (hf : 3 < fuel) (r : List Bool) : ∀ (w : World) (id : Int) (c : Nat),
    FirstPass w id c → c + r.count true < 2147483648 →
    ∃ w1 id1, rcu_writer_loop fuel r w id = some (w1, id1) ∧
      FirstPass w1 id1 (c + r.count true) := by
  induction r with
  | nil => intro w id c h _; exact ⟨w, id, rfl, by simpa using h⟩
  | cons a r ih =>
    intro w id c h hc
    cases a with
    | false =>
      obtain ⟨w1, id1, hl, h1⟩ := ih _ id c (fp_fail h) (by simpa using hc)
      exact ⟨w1, id1, by simpa [rcu_writer_loop, rcu_writer_cycle] using hl, by simpa using h1⟩
    | true =>
      have hc1 : c + 1 + r.count true < 2147483648 := by
        simp [List.count_cons] at hc; omega
      obtain ⟨w1, hcy, h1, _⟩ := fp_step fuel h (by omega) hf
      obtain ⟨w2, id2, hl, h2⟩ := ih w1 _ (c + 1) h1 hc1
      refine ⟨w2, id2, by simp [rcu_writer_loop, hcy, hl], ?_⟩
      have : c + (true :: r).count true = c + 1 + r.count true := by
        simp [List.count_cons]; omega
      rw [this]; exact h2

theorem window_lt {c k : Nat} (hk : k ∈ window c) : k < c := by
  match c, hk with
  | 1, hk => simp [window] at hk; omega
  | c + 2, hk => simp [window] at hk; omega

theorem fp_live {w : World} {id : Int} {c : Nat} (h : FirstPass w id c) (k : Nat)
    (hk : (w.mem.slab k).isSome) : k ∈ window c := by
  by_contra hne
  have := h.pay k
  rw [if_neg hne] at this
  simp only [payload] at this
  cases hh : w.mem.slab k with
  | none => rw [hh] at hk; simp at hk
  | some n => rw [hh] at this; simp at this

theorem fp_run (fuel : Nat) (hf : 3 < fuel) (r : List Bool) (hc : r.count true < 2147483648) :
    ∃ w id, rcu_writer fuel r = some (w, id) ∧ FirstPass w id (r.count true) := by
  obtain ⟨w, id, hl, h⟩ := fp_loop fuel hf r World.init 1 0 fp_init (by omega)
  exact ⟨w, id, hl, by simpa using h⟩

theorem world2_fp : FirstPass world2 3 2 := by
  obtain ⟨w, id, hl, h⟩ := fp_run 4 (by decide) [true, true] (by decide)
  have hw : world2 = w := by simp [world2, hl]
  have hid : id = 3 := by rw [h.idv]; decide
  rw [hw, ← hid]
  exact h

theorem fp_small_step {w : World} {id : Int} {c : Nat} (fuel : Nat) (h : FirstPass w id c)
    (hid : ¬ id > 2) :
    ∃ w1, rcu_writer_cycle fuel true w id = some (w1, wrap32 (id + 1)) ∧
      w1.trace = w.trace ++ [.kmalloc (some c), .set_id c id, .set_name c, .list_add_rcu c] := by
  have hk : w.brk ∉ window c := by
    rw [h.brk]; exact fun hh => Nat.lt_irrefl _ (window_lt hh)
  obtain ⟨w1, w2, _, _, hpub, _, _, _, _, _, _, ht1, ht2⟩ := @publish_spec id w (window c) h.ring hk
  refine ⟨w2, by simp [rcu_writer_cycle, hpub, retire_skip fuel id w2 hid], ?_⟩
  rw [ht2, ht1, h.brk]; simp

/-! ## Publish, unlink and unload -/

/-- C3: on any well-formed chain `l`, the publish step of a writer cycle
succeeds; when `list_add_rcu` is reached the new node already carries its id
and name while the chain is still `l`; afterwards the chain is the new node
followed by `l` in its previous order, the new node's `next` holds what the
list head's `next` held before (the previous head), and the stores to `id`
and `name` precede `list_add_rcu` in the trace. -/
theorem publish_inserts_at_head (w : World) (l : List Nat) (id : Int) (fuel : Nat)
    (h : Ring w.mem l) (hk : w.brk ∉ l) (hf : l.length + 1 < fuel) :
    ∃ w1 w2, rcu_writer_prepare id w = some w1 ∧ rcu_writer_link w.brk w1 = some w2 ∧
      rcu_writer_publish id w = some w2 ∧
      chain fuel w.mem = some l ∧
      chain fuel w1.mem = some l ∧ payload w1.mem w.brk = some (id, node_name id) ∧
      chain fuel w2.mem = some (w.brk :: l) ∧ Ring w2.mem (w.brk :: l) ∧
      payload w2.mem w.brk = some (id, node_name id) ∧
      (∀ j ∈ l, payload w2.mem j = payload w.mem j) ∧
      w2.mem.nxt (.node w.brk) = some w.mem.rcu_demo_list.next ∧
      w.mem.rcu_demo_list.next = (l.map Ptr.node).headD .head ∧
      w2.trace = w.trace ++
        [.kmalloc (some w.brk), .set_id w.brk id, .set_name w.brk, .list_add_rcu w.brk] := by
  obtain ⟨w1, w2, hp, hl, hpub, hr1, hy1, hr2, hy2, hn, _, ht1, ht2⟩ :=
    @publish_spec id w l h hk
  refine ⟨w1, w2, hp, hl, hpub, chain_ring h (by omega), chain_ring hr1 (by omega), ?_,
    chain_ring hr2 (by simpa using hf), hr2, ?_, ?_, hn, ring_head_next h, ?_⟩
  · rw [hy1]; simp [Function.update]
  · rw [hy2, hy1]; simp [Function.update]
  · intro j hj
    have : j ≠ w.brk := fun hh => hk (hh ▸ hj)
    rw [hy2, hy1]; simp [Function.update, this]
  · rw [ht2, ht1]; simp

/-- C3, instance: publishing id 3 on the chain left by two cycles puts the
new node in front of the two old ones. -/
theorem publish_inserts_at_head_witness :
    Ring world2.mem [1, 0] ∧ ∃ w2, rcu_writer_publish 3 world2 = some w2 ∧
      chain 4 w2.mem = some [2, 1, 0] ∧ w2.mem.nxt (.node 2) = some (.node 1) := by
  refine ⟨by decide, ?_⟩
  obtain ⟨_, w2, _, _, hpub, _, _, _, hc, _, _, _, hn, _, _⟩ :=
    publish_inserts_at_head world2 [1, 0] 3 4 (by decide) (by decide) (by decide)
  exact ⟨w2, hpub, hc, hn⟩

/-- C4: on any well-formed chain `l`, the unlink step of a writer cycle (the
`id > 2` block) succeeds and leaves the chain `l` with the first node whose id
is `id - 2` erased, the other nodes in their order and with their payload;
when no node matches, memory is unchanged and the cycle only takes and drops
the read lock (no `synchronize_rcu`, no `kfree`); when `k` is the first match,
the cycle unlinks `k`, waits for a grace period and frees `k`. -/
theorem unlink_erases_first_match (w : World) (l : List Nat) (id : Int) (fuel : Nat)
    (h : Ring w.mem l) (hf : l.length < fuel) (hid : id > 2) :
    ∃ w1, rcu_writer_retire fuel id w = some w1 ∧
      Ring w1.mem (l.eraseP (fun k => decide (id_of w.mem k = some (id - 2)))) ∧
      chain fuel w1.mem = some (l.eraseP (fun k => decide (id_of w.mem k = some (id - 2)))) ∧
      (∀ j ∈ l.eraseP (fun k => decide (id_of w.mem k = some (id - 2))),
        payload w1.mem j = payload w.mem j) ∧
      ((∀ k ∈ l, id_of w.mem k ≠ some (id - 2)) →
        w1.mem = w.mem ∧ w1.trace = w.trace ++ [.rcu_read_lock, .rcu_read_unlock]) ∧
      (∀ k, l.find? (fun k => decide (id_of w.mem k = some (id - 2))) = some k →
        w1.mem.slab k = none ∧
        w1.trace = w.trace ++ [.rcu_read_lock, .list_del_rcu k, .rcu_read_unlock,
          .synchronize_rcu, .kfree k]) := by
  by_cases hex : ∃ k ∈ l, id_of w.mem k = some (id - 2)
  · obtain ⟨k0, hk0, hp0⟩ := hex
    obtain ⟨k, l1, l2, hno, hk, hl, he⟩ :=
      List.exists_of_eraseP (p := fun k => decide (id_of w.mem k = some (id - 2))) hk0
        (by simpa using hp0)
    have hno1 : ∀ b ∈ l1, id_of w.mem b ≠ some (id - 2) := fun b hb => by
      simpa using hno b hb
    have hk1 : id_of w.mem k = some (id - 2) := by simpa using hk
    subst hl
    obtain ⟨m1, m2, _, hfree, _, _, _, _, hr2, hy2, hret⟩ := retire_some hid h hf hno1 hk1
    have hknot : k ∉ l1 ++ l2 := by
      intro hh
      have h1 := List.nodup_append.mp h.1
      rcases List.mem_append.mp hh with h2 | h2
      · exact h1.2.2 h2 (List.mem_cons_self _ _)
      · exact (List.nodup_cons.mp h1.2.1).1 h2
    have hfind : (l1 ++ k :: l2).find? (fun k => decide (id_of w.mem k = some (id - 2))) =
        some k := by
      rw [List.find?_append, List.find?_eq_none.mpr (fun b hb => by simpa using hno1 b hb)]
      simp [List.find?_cons, hk1]
    refine ⟨_, hret, ?_, ?_, ?_, ?_, ?_⟩
    · rw [he]; exact hr2
    · rw [he]; exact chain_ring hr2 (by simp at hf ⊢; omega)
    · rw [he]
      intro j hj
      have : j ≠ k := fun hh => hknot (hh ▸ hj)
      show payload m2 j = _
      rw [hy2]; simp [Function.update, this]
    · intro hall
      exact absurd hk1 (hall k (by simp))
    · intro k1 hk1f
      rw [hfind] at hk1f
      have := Option.some.inj hk1f
      subst this
      refine ⟨?_, rfl⟩
      have := congrFun hy2 k
      simp only [payload, Function.update, if_true] at this
      show m2.slab k = none
      cases hh : m2.slab k with
      | none => rfl
      | some n => rw [hh] at this; simp at this
  · have hno : ∀ k ∈ l, id_of w.mem k ≠ some (id - 2) := fun k hk hh => hex ⟨k, hk, hh⟩
    have he : l.eraseP (fun k => decide (id_of w.mem k = some (id - 2))) = l :=
      List.eraseP_of_forall_not (fun k hk => by simpa using hno k hk)
    refine ⟨_, retire_none hid h hf hno, ?_, ?_, ?_, ?_, ?_⟩
    · rw [he]; exact h
    · rw [he]; exact chain_ring h hf
    · intro j _; rfl
    · intro _; exact ⟨rfl, rfl⟩
    · intro k hk
      have := List.find?_some hk
      have hmem := List.mem_of_find?_eq_some hk
      exact absurd (by simpa using this) (hno k hmem)

/-- C4, instance: on the chain with ids 3, 2, 1 and `id = 3`, the node with
id 1 is erased and freed behind a barrier. -/
theorem unlink_erases_first_match_witness :
    Ring world321.mem [2, 1, 0] ∧ ∃ w1, rcu_writer_retire 4 3 world321 = some w1 ∧
      chain 4 w1.mem = some [2, 1] ∧
      w1.trace = world321.trace ++ [.rcu_read_lock, .list_del_rcu 0, .rcu_read_unlock,
          .synchronize_rcu, .kfree 0] := by
  refine ⟨by decide, ?_⟩
  obtain ⟨w1, hr, _, hc, _, _, hk⟩ :=
    unlink_erases_first_match world321 [2, 1, 0] 3 4 (by decide) (by decide) (by decide)
  exact ⟨w1, hr, hc, (hk 0 (by decide)).2⟩

/-- C10: unlinking any node `k` of a well-formed chain succeeds and leaves
`k`'s own `next` field as it was, namely pointing at `k`'s successor (or at
the list head when `k` was the tail); following `next` links from `k` in the
memory after the unlink, with `k` not yet freed, visits `k` and then exactly
its former successors in order and arrives at the list head. -/
theorem unlink_keeps_next (m : Mem) (l1 l2 : List Nat) (k : Nat) (fuel : Nat)
    (h : Ring m (l1 ++ k :: l2)) (hf : l2.length + 1 < fuel) :
    ∃ m1, list_del_rcu m (.node k) = some m1 ∧
      m1.nxt (.node k) = m.nxt (.node k) ∧
      m.nxt (.node k) = some ((l2.map Ptr.node).headD .head) ∧
      follow m fuel (.node k) = some (k :: l2) ∧
      follow m1 fuel (.node k) = some (k :: l2) ∧
      Ring m1 (l1 ++ l2) := by
  obtain ⟨m1, hd, hr, _, hn, _, hseg⟩ := ring_del h
  have h1 : Seg m.nxt .head ((Ptr.head :: l1.map Ptr.node) ++ Ptr.node k :: l2.map Ptr.node)
      .head := by simpa using h.2.1
  obtain ⟨x, _, h2⟩ := seg_append.mp h1
  have hx : x = Ptr.node k := h2.1
  rw [hx] at h2
  refine ⟨m1, hd, hn, seg_next h1, ?_, ?_, hr⟩
  · exact follow_seg (l := k :: l2) (by simpa using h2) (by simpa using hf)
  · exact follow_seg (l := k :: l2) (by simpa using hseg) (by simpa using hf)

/-- C10, instance: in the chain with ids 3, 2, 1 the node with id 2 is
unlinked; a walk standing on it still reaches the node with id 1 and the end
of the chain. -/
theorem unlink_keeps_next_witness :
    Ring world321.mem ([2] ++ 1 :: [0]) ∧ ∃ m1, list_del_rcu world321.mem (.node 1) = some m1 ∧
      m1.nxt (.node 1) = some (.node 0) ∧ follow m1 3 (.node 1) = some [1, 0] := by
  refine ⟨by decide, ?_⟩
  obtain ⟨m1, hd, hn, hn0, _, hfol, _⟩ :=
    unlink_keeps_next world321.mem [2] [0] 1 3 (by decide) (by decide)
  exact ⟨m1, hd, by rw [hn, hn0]; rfl, hfol⟩

/-- C8: on any well-formed chain `l`, a cycle whose `kmalloc` fails returns
the same memory (so the same chain), the same allocator state and the same
`id`, having made no call but the failed `kmalloc`; the next cycle, when its
`kmalloc` succeeds, allocates the node that the failed cycle would have
taken, stores that same `id` in it, links it at the head of the chain and
only then advances `id`. -/
theorem alloc_failure_retries (fuel : Nat) (w : World) (l : List Nat) (id : Int) (r : List Bool)
    (h : Ring w.mem l) (hk : w.brk ∉ l) (hf : l.length + 1 < fuel) :
    ∃ w1 w2 t,
      rcu_writer_cycle fuel false w id = some (w1, id) ∧
      w1.mem = w.mem ∧ w1.brk = w.brk ∧ w1.trace = w.trace ++ [.kmalloc none] ∧
      chain fuel w1.mem = some l ∧
      rcu_writer_cycle fuel true w1 id = some (w2, wrap32 (id + 1)) ∧
      rcu_writer_loop fuel (false :: true :: r) w id =
        rcu_writer_loop fuel r w2 (wrap32 (id + 1)) ∧
      w2.trace = w1.trace ++ [.kmalloc (some w.brk), .set_id w.brk id, .set_name w.brk,
        .list_add_rcu w.brk] ++ t ∧
      payload w2.mem w.brk = some (id, node_name id) ∧
      chain fuel w2.mem = some (w.brk ::
        (if id > 2 then l.eraseP (fun k => decide (id_of w.mem k = some (id - 2))) else l)) := by
  have h1 : Ring ({ w with trace := w.trace ++ [Event.kmalloc none] } : World).mem l := h
  obtain ⟨w2, t, hc, hr, hp, _, ht⟩ := cycle_publishes fuel id h1 hk hf
  refine ⟨{ w with trace := w.trace ++ [.kmalloc none] }, w2, t, rfl, rfl, rfl, rfl,
    chain_ring h (by omega), hc, ?_, ht, hp, chain_ring hr ?_⟩
  · have hc0 : rcu_writer_cycle fuel false w id =
        some ({ w with trace := w.trace ++ [.kmalloc none] }, id) := rfl
    simp only [rcu_writer_loop, hc0, hc]
  · by_cases hid : id > 2
    · have := List.length_eraseP_le (p := fun k => decide (id_of w.mem k = some (id - 2))) l
      simp only [hid, if_true, List.length_cons]
      omega
    · simp only [hid, if_false, List.length_cons]
      omega

/-- C8, instance: after two cycles the next allocation fails; the retry
publishes id 3 in node 2 and retires the node with id 1. -/
theorem alloc_failure_retries_witness :
    Ring world2.mem [1, 0] ∧ ∃ w2, rcu_writer_loop 4 [false, true] world2 3 = some (w2, 4) ∧
      payload w2.mem 2 = some (3, node_name 3) ∧ chain 4 w2.mem = some [2, 1] := by
  refine ⟨by decide, ?_⟩
  obtain ⟨_, w2, _, _, _, _, _, _, _, hl, _, hp, hc⟩ :=
    alloc_failure_retries 4 world2 [1, 0] 3 [] (by decide) (by decide) (by decide)
  have e1 : wrap32 (3 + 1) = 4 := by decide
  have e2 : world2.brk = 2 := by decide
  have e3 : (world2.brk :: (if (3 : Int) > 2 then
      [1, 0].eraseP (fun k => decide (id_of world2.mem k = some (3 - 2))) else [1, 0])) =
      [2, 1] := by decide
  rw [e3] at hc
  rw [e2] at hp
  rw [e1] at hl
  exact ⟨w2, hl, hp, hc⟩

/-- C9, failing run: the reader runs five sessions while the chain is the
single node with id 1 and then one session when the chain is the nodes with
ids 2 and 1. The sixth session visits only the head node and stops short of
the second node, because `count` is not reset between sessions. -/
theorem reader_count_carries_over :
    chain_ids 4 world1.mem = some [some 1] ∧
      chain_ids 4 world2.mem = some [some 2, some 1] ∧
      chain 4 world2.mem = some [1, 0] ∧
      rcu_reader 4 [world1.mem, world1.mem, world1.mem, world1.mem, world1.mem, world2.mem] =
        some [[0], [0], [0], [0], [0], [1]] := by
  decide

/-- C2, as stated, fails: unloading after two writer cycles frees both nodes
with no `synchronize_rcu` between a node's unlink and its free; the only
barrier call comes before the first unlink. -/
theorem exit_no_barrier_between :
    (rcu_demo_exit 4 true true world2).map (fun w => w.trace) =
        some [.kmalloc (some 0), .set_id 0 1, .set_name 0, .list_add_rcu 0,
          .kmalloc (some 1), .set_id 1 2, .set_name 1, .list_add_rcu 1,
          .kthread_stop_reader, .kthread_stop_writer, .synchronize_rcu,
          .list_del_rcu 1, .kfree 1, .list_del_rcu 0, .kfree 0] ∧
      ¬ FreedAfterBarrier [.kmalloc (some 0), .set_id 0 1, .set_name 0, .list_add_rcu 0,
          .kmalloc (some 1), .set_id 1 2, .set_name 1, .list_add_rcu 1,
          .kthread_stop_reader, .kthread_stop_writer, .synchronize_rcu,
          .list_del_rcu 1, .kfree 1, .list_del_rcu 0, .kfree 0] := by
  refine ⟨by decide, ?_⟩
  intro h
  have := h 1 [.kmalloc (some 0), .set_id 0 1, .set_name 0, .list_add_rcu 0,
    .kmalloc (some 1), .set_id 1 2, .set_name 1, .list_add_rcu 1,
    .kthread_stop_reader, .kthread_stop_writer, .synchronize_rcu, .list_del_rcu 1]
    [.list_del_rcu 0, .kfree 0] rfl
  revert this
  decide

/-- C2, amended: on any well-formed chain `l`, `rcu_demo_exit` succeeds; it
stops the threads, calls `synchronize_rcu` once, and then unlinks and at once
frees each node of `l` in chain order, so that for every node the barrier
comes before its unlink and its unlink before its free. -/
theorem exit_barrier_then_unlink_free (w : World) (l : List Nat) (fuel : Nat)
    (reader_ok writer_ok : Bool) (h : Ring w.mem l) (hf : l.length < fuel) :
    ∃ w1, rcu_demo_exit fuel reader_ok writer_ok w = some w1 ∧
      w1.trace = w.trace ++ (if reader_ok then [Event.kthread_stop_reader] else []) ++
        (if writer_ok then [Event.kthread_stop_writer] else []) ++ [Event.synchronize_rcu] ++
        l.flatMap (fun k => [Event.list_del_rcu k, Event.kfree k]) ∧
      ∀ k ∈ l, List.Sublist [Event.synchronize_rcu, Event.list_del_rcu k, Event.kfree k]
        ([Event.synchronize_rcu] ++ l.flatMap (fun k => [Event.list_del_rcu k, Event.kfree k])) := by
  obtain ⟨w1, he, _, ht, _⟩ := exit_spec fuel reader_ok writer_ok h hf
  refine ⟨w1, he, ht, ?_⟩
  intro k hk
  exact List.Sublist.cons₂ _ (sublist_flatMap_pair l k hk)

/-- C2, amended, instance: unloading after two writer cycles. -/
theorem exit_barrier_then_unlink_free_witness :
    Ring world2.mem [1, 0] ∧ ∃ w1, rcu_demo_exit 4 true true world2 = some w1 ∧
      w1.trace = world2.trace ++ [.kthread_stop_reader, .kthread_stop_writer, .synchronize_rcu,
        .list_del_rcu 1, .kfree 1, .list_del_rcu 0, .kfree 0] := by
  refine ⟨by decide, ?_⟩
  obtain ⟨w1, he, ht, _⟩ :=
    exit_barrier_then_unlink_free world2 [1, 0] 4 true true (by decide) (by decide)
  exact ⟨w1, he, by rw [ht]; simp⟩

/-- C7: when the chain `l` is well formed and every live node is on it,
`rcu_demo_exit` succeeds and leaves an empty, well-formed list and no live
node at all; its cleanup frees every node of `l` exactly once and frees
nothing else. -/
theorem exit_frees_everything (w : World) (l : List Nat) (fuel : Nat)
    (reader_ok writer_ok : Bool) (h : Ring w.mem l)
    (hlive : ∀ k, (w.mem.slab k).isSome → k ∈ l) (hf : l.length < fuel) :
    ∃ w1 t, rcu_demo_exit fuel reader_ok writer_ok w = some w1 ∧
      Ring w1.mem [] ∧ chain fuel w1.mem = some [] ∧
      w1.mem.rcu_demo_list = ⟨.head, .head⟩ ∧
      (∀ k, w1.mem.slab k = none) ∧
      w1.trace = w.trace ++ t ∧
      (∀ k ∈ l, t.count (.kfree k) = 1 ∧
        List.Sublist [Event.list_del_rcu k, Event.kfree k] t) ∧
      (∀ k, k ∉ l → t.count (.kfree k) = 0) := by
  obtain ⟨w1, he, hr, ht, hpay⟩ := exit_spec fuel reader_ok writer_ok h hf
  have hcnt : ∀ k, ((if reader_ok then [Event.kthread_stop_reader] else []) ++
        (if writer_ok then [Event.kthread_stop_writer] else []) ++ [Event.synchronize_rcu] ++
        l.flatMap (fun k => [Event.list_del_rcu k, Event.kfree k])).count (.kfree k) =
      if k ∈ l then 1 else 0 := by
    intro k
    rw [List.count_append, count_kfree_flatMap l h.1 k]
    cases reader_ok <;> cases writer_ok <;> simp
  refine ⟨w1, (if reader_ok then [Event.kthread_stop_reader] else []) ++
        (if writer_ok then [Event.kthread_stop_writer] else []) ++ [Event.synchronize_rcu] ++
        l.flatMap (fun k => [Event.list_del_rcu k, Event.kfree k]),
    he, hr, chain_ring hr (by simp; omega), ?_, ?_, by rw [ht]; simp only [List.append_assoc],
    ?_, ?_⟩
  · have h1 := ring_head_next hr
    have h2 : Seg w1.mem.prv .head ([] ++ Ptr.head :: []) .head := hr.2.2
    have h3 := seg_next h2
    simp only [Mem.prv, Mem.load, List.map_nil, List.headD_nil, Option.map_some',
      Option.some.injEq] at h1 h3
    cases hh : w1.mem.rcu_demo_list
    rw [hh] at h1 h3
    simp only at h1 h3
    rw [h1, h3]
  · intro k
    have h1 := hpay k
    by_cases hk : k ∈ l
    · simp only [hk, if_true, payload] at h1
      cases hh : w1.mem.slab k with
      | none => rfl
      | some n => rw [hh] at h1; simp at h1
    · have h2 : w.mem.slab k = none := by
        cases hh : w.mem.slab k with
        | none => rfl
        | some n => exact absurd (hlive k (by simp [hh])) hk
      simp only [hk, if_false, payload, h2] at h1
      cases hh : w1.mem.slab k with
      | none => rfl
      | some n => rw [hh] at h1; simp at h1
  · intro k hk
    refine ⟨by simpa [hk] using hcnt k, ?_⟩
    simp only [List.append_assoc]
    exact List.sublist_append_of_sublist_right (List.sublist_append_of_sublist_right
      (List.sublist_append_of_sublist_right (sublist_flatMap_pair l k hk)))
  · intro k hk
    simpa [hk] using hcnt k

/-- C7, instance: unloading after two writer cycles leaves nothing behind. -/
theorem exit_frees_everything_witness :
    Ring world2.mem [1, 0] ∧ ∃ w1, rcu_demo_exit 4 true true world2 = some w1 ∧
      chain 4 w1.mem = some [] ∧ ∀ k, w1.mem.slab k = none := by
  refine ⟨by decide, ?_⟩
  have hlive : ∀ k, (world2.mem.slab k).isSome → k ∈ [1, 0] := fp_live world2_fp
  obtain ⟨w1, _, he, _, hc, _, hs, _⟩ :=
    exit_frees_everything world2 [1, 0] 4 true true (by decide) hlive (by decide)
  exact ⟨w1, he, hc, hs⟩

/-! ## The writer loop -/

/-- C1: every run of the writer loop from module load completes, and in its
trace every `kfree` of a node comes after the `list_del_rcu` of that node and
a `synchronize_rcu` issued after that unlink; a node that was unlinked was
unlinked once and freed once, and a node that was freed had been unlinked. -/
theorem writer_frees_after_barrier (fuel : Nat) (r : List Bool) (hf : r.length < fuel) :
    ∃ w id, rcu_writer fuel r = some (w, id) ∧ FreedAfterBarrier w.trace ∧
      (∀ k, Event.list_del_rcu k ∈ w.trace →
        w.trace.count (.list_del_rcu k) = 1 ∧ w.trace.count (.kfree k) = 1) ∧
      (∀ k, Event.kfree k ∈ w.trace →
        w.trace.count (.kfree k) = 1 ∧ Event.list_del_rcu k ∈ w.trace) := by
  obtain ⟨w, id, l, hl, hI⟩ := loop_inv fuel r World.init [] 1 inv_init
    (by simpa [World.init] using hf)
  refine ⟨w, id, hl, hI.fab, ?_, ?_⟩
  · intro k hk
    have h1 := hI.once k
    have h2 := List.count_pos_iff.mpr hk
    omega
  · intro k hk
    have h1 := hI.once k
    have h2 := List.count_pos_iff.mpr hk
    refine ⟨by omega, List.count_pos_iff.mp (by omega)⟩

/-- C1, instance: four successful cycles. -/
theorem writer_frees_after_barrier_witness :
    [true, true, true, true].length < 5 ∧
      ∃ w id, rcu_writer 5 [true, true, true, true] = some (w, id) ∧
        FreedAfterBarrier w.trace := by
  refine ⟨by decide, ?_⟩
  obtain ⟨w, id, h, hfab, _⟩ :=
    writer_frees_after_barrier 5 [true, true, true, true] (by decide)
  exact ⟨w, id, h, hfab⟩

/-- C5, as stated, fails: in the run of 2147483648 successful cycles the ids
written are 1 up to 2147483647 (`INT_MAX`) and then -2147483648, so the last
node published does not carry id 2147483648 and its id is below its
predecessor's. -/
theorem id_wraps_past_int_max :
    ∃ w id, rcu_writer 4 (List.replicate 2147483648 true) = some (w, id) ∧
      published w.trace =
        (List.range 2147483647).map (fun (i : Nat) => (i : Int) + 1) ++ [-2147483648] := by
  obtain ⟨w0, id0, hl0, h0⟩ := fp_run 4 (by decide) (List.replicate 2147483647 true)
    (by rw [List.count_replicate_self]; decide)
  rw [List.count_replicate_self] at h0
  have hid0 : id0 = -2147483648 := by rw [h0.idv]; decide
  obtain ⟨w1, hc, ht⟩ := fp_small_step 4 h0 (by rw [hid0]; decide)
  refine ⟨w1, wrap32 (id0 + 1), ?_, ?_⟩
  · have e : List.replicate 2147483648 true = List.replicate 2147483647 true ++ [true] :=
      List.replicate_succ' 2147483647 true
    unfold rcu_writer at hl0 ⊢
    rw [e, loop_append, hl0]
    simp only [Option.some_bind, rcu_writer_loop, hc]
  · rw [ht, ← h0.pub, hid0]
    simp [published, List.filterMap_append]

/-- C5, amended: in every run of the writer loop from module load with fewer
than 2147483648 successful allocations, whatever the allocation failures in
between, the run completes and the ids written are 1, 2, ..., one per
successful allocation; they are strictly increasing, hence pairwise
different. -/
theorem published_ids_sequential (fuel : Nat) (r : List Bool) (hf : 3 < fuel)
    (hc : r.count true < 2147483648) :
    ∃ w id, rcu_writer fuel r = some (w, id) ∧
      published w.trace = (List.range (r.count true)).map (fun (i : Nat) => (i : Int) + 1) ∧
      (published w.trace).Pairwise (fun a b => a < b) ∧
      (∀ k v, Event.set_id k v ∈ w.trace ↔ k < r.count true ∧ v = (k : Int) + 1) := by
  obtain ⟨w, id, hl, h⟩ := fp_run fuel hf r hc
  refine ⟨w, id, hl, h.pub, ?_, h.ids⟩
  rw [h.pub, List.pairwise_map]
  exact List.Pairwise.imp (fun {a b} hab => by
    have hab1 : a < b := hab
    show (a : Int) + 1 < (b : Int) + 1
    omega) (List.pairwise_lt_range _)

/-- C5, amended, instance: four successes with two failures in between. -/
theorem published_ids_sequential_witness :
    ∃ w id, rcu_writer 4 [true, false, true, true, false, true] = some (w, id) ∧
      published w.trace = [1, 2, 3, 4] := by
  obtain ⟨w, id, hl, hp, _⟩ :=
    published_ids_sequential 4 [true, false, true, true, false, true] (by decide) (by decide)
  exact ⟨w, id, hl, by rw [hp]; decide⟩

/-- C6, as stated, fails: in the run of 4294967299 successful cycles from
module load the loop variable has wrapped and come back to 3, so the last
cycle publishes id 3 (again); when it completes the chain holds at least three
nodes, not just the nodes with ids 3 and 2. -/
theorem window_lost_after_wrap :
    ∃ w0 w id, rcu_writer 4294967300 (List.replicate 4294967298 true) = some (w0, 3) ∧
      rcu_writer_cycle 4294967300 true w0 3 = some (w, id) ∧
      rcu_writer 4294967300 (List.replicate 4294967299 true) = some (w, id) ∧
      Event.set_id w0.brk 3 ∈ w.trace ∧
      (∃ l, chain 4294967300 w.mem = some l ∧ 3 ≤ l.length) ∧
      chain_ids 4294967300 w.mem ≠ some [some 3, some 2] := by
  -- ids 1 and 2: nothing is retired, the chain grows to two nodes
  obtain ⟨w1, l1, hc1, hI1, hb1, _, hg1, _⟩ := cycle_grow 4294967300 1 inv_init (by decide)
  have e1 : wrap32 (1 + 1) = 2 := by decide
  rw [e1] at hc1
  obtain ⟨w2, l2, hc2, hI2, hb2, _, hg2, _⟩ := cycle_grow 4294967300 2 hI1
    (by rw [hb1]; decide)
  have e2 : wrap32 (2 + 1) = 3 := by decide
  rw [e2] at hc2
  have hlen2 : 2 ≤ l2.length := by
    have := hg1 (by decide)
    have := hg2 (by decide)
    simp at *
    omega
  have hbrk2 : w2.brk = 2 := by rw [hb2, hb1]; rfl
  -- ids 3 up to INT_MAX
  obtain ⟨w3, l3, hc3, hI3, hlen3, hb3⟩ := loop_grow 4294967300 2147483645 w2 l2 3 hI2
    (by decide) (by decide) (by rw [hbrk2]; decide)
  have e3 : wrap32 (3 + ((2147483645 : Nat) : Int)) = -2147483648 := by decide
  rw [e3] at hc3
  -- id INT_MIN: nothing is retired, the chain grows to three nodes
  obtain ⟨w4, l4, hc4, hI4, hb4, _, hg4, _⟩ := cycle_grow 4294967300 (-2147483648) hI3
    (by rw [hb3, hbrk2]; decide)
  have e4 : wrap32 (-2147483648 + 1) = -2147483647 := by decide
  rw [e4] at hc4
  have hlen4 : 3 ≤ l4.length := by
    have := hg4 (by decide)
    omega
  -- ids INT_MIN + 1 up to 2
  obtain ⟨w5, l5, hc5, hI5, hlen5, hb5⟩ := loop_grow 4294967300 2147483650 w4 l4 (-2147483647)
    hI4 (by decide) (by decide) (by rw [hb4, hb3, hbrk2]; decide)
  have e5 : wrap32 (-2147483647 + ((2147483650 : Nat) : Int)) = 3 := by decide
  rw [e5] at hc5
  -- id 3 again
  obtain ⟨w6, l6, hc6, hI6, hb6, hlen6, _, hset⟩ := cycle_grow 4294967300 3 hI5
    (by rw [hb5, hb4, hb3, hbrk2]; decide)
  have hrun5 : rcu_writer 4294967300 (List.replicate 4294967298 true) = some (w5, 3) := by
    have e : List.replicate 4294967298 true = [true] ++ ([true] ++
        (List.replicate 2147483645 true ++ ([true] ++ List.replicate 2147483650 true))) := by
      rw [show (4294967298 : Nat) = 1 + (1 + (2147483645 + (1 + 2147483650))) from rfl,
        List.replicate_add, List.replicate_add, List.replicate_add, List.replicate_add]
      rfl
    unfold rcu_writer
    rw [e, loop_append, loop_single, hc1]
    simp only [Option.some_bind]
    rw [loop_append, loop_single, hc2]
    simp only [Option.some_bind]
    rw [loop_append, hc3]
    simp only [Option.some_bind]
    rw [loop_append, loop_single, hc4]
    simp only [Option.some_bind]
    exact hc5
  have hbrk6 : w6.brk = 4294967299 := by rw [hb6, hb5, hb4, hb3, hbrk2]
  have hchain : chain 4294967300 w6.mem = some l6 := by
    refine chain_ring hI6.ring ?_
    have := length_le_of_bound hI6.ring.1 hI6.bound
    omega
  refine ⟨w5, w6, wrap32 (3 + 1), hrun5, hc6, ?_, hset, ⟨l6, hchain, by omega⟩, ?_⟩
  · have e : List.replicate 4294967299 true = List.replicate 4294967298 true ++ [true] :=
      List.replicate_succ' 4294967298 true
    unfold rcu_writer at hrun5 ⊢
    rw [e, loop_append, hrun5]
    simp only [Option.some_bind, rcu_writer_loop, hc6]
  · intro hh
    simp only [chain_ids, hchain, Option.map_some', Option.some.injEq] at hh
    have := congrArg List.length hh
    simp at this
    omega

/-- C6, amended: let a run from module load have `n - 1` successful
allocations, with `3 ≤ n ≤ INT_MAX`, and be followed by one more successful
cycle, the `n`-th. That cycle publishes id `n` (for the first time), unlinks
the node carrying id `n - 2`, waits for a grace period and frees it; when it
completes the chain is the nodes with ids `n` and `n - 1`, head first, and
every node that was given an id up to `n - 2` has been freed. -/
theorem sliding_window (fuel : Nat) (r0 : List Bool) (n : Nat) (hf : 3 < fuel)
    (hn : r0.count true + 1 = n) (h3 : 3 ≤ n) (hmax : n < 2147483648) :
    ∃ w0 id0 w id, rcu_writer fuel r0 = some (w0, id0) ∧
      rcu_writer_cycle fuel true w0 id0 = some (w, id) ∧
      rcu_writer fuel (r0 ++ [true]) = some (w, id) ∧
      chain fuel w.mem = some [n - 1, n - 2] ∧
      chain_ids fuel w.mem = some [some (n : Int), some ((n : Int) - 1)] ∧
      w.trace = w0.trace ++ [.kmalloc (some (n - 1)), .set_id (n - 1) (n : Int),
        .set_name (n - 1), .list_add_rcu (n - 1), .rcu_read_lock, .list_del_rcu (n - 3),
        .rcu_read_unlock, .synchronize_rcu, .kfree (n - 3)] ∧
      Event.set_id (n - 3) ((n : Int) - 2) ∈ w0.trace ∧
      (∀ k v, Event.set_id k v ∈ w.trace → v ≤ (n : Int) - 2 →
        Event.kfree k ∈ w.trace ∧ w.mem.slab k = none) := by
  obtain ⟨c, rfl⟩ : ∃ c, n = c + 3 := ⟨n - 3, by omega⟩
  have hcnt : r0.count true = c + 2 := by omega
  obtain ⟨w0, id0, hl0, h0⟩ := fp_run fuel hf r0 (by omega)
  rw [hcnt] at h0
  obtain ⟨w, hcy, h1, ht⟩ := fp_step fuel h0 (by omega) hf
  have hring : Ring w.mem [c + 2, c + 1] := h1.ring
  have hchain : chain fuel w.mem = some [c + 2, c + 1] := chain_ring hring (by simp; omega)
  have hid : ∀ k ∈ [c + 2, c + 1], id_of w.mem k = some ((k : Int) + 1) := by
    intro k hk
    have hp := h1.pay k
    rw [if_pos (by simpa [window] using hk)] at hp
    exact id_of_payload hp
  refine ⟨w0, id0, w, wrap32 (id0 + 1), hl0, hcy, ?_, ?_, ?_, ?_, ?_, ?_⟩
  · unfold rcu_writer at hl0 ⊢
    rw [loop_append, hl0]
    simp only [Option.some_bind, rcu_writer_loop, hcy]
  · simpa using hchain
  · simp only [chain_ids, hchain, Option.map_some', List.map_cons, List.map_nil,
      hid (c + 2) (by simp), hid (c + 1) (by simp)]
    push_cast
    congr 3
    ring_nf
  · rw [ht]
    have e : ¬ (c + 2 < 2) := by omega
    simp only [e, if_false, List.append_assoc, List.cons_append, List.nil_append]
    congr 3
  · rw [h0.ids]
    refine ⟨by omega, ?_⟩
    simp only [Nat.add_sub_cancel]
    push_cast; ring
  · intro k v hkv hv
    have hk := (h1.ids k v).mp hkv
    have hk2 : k + 2 < c + 2 + 1 := by
      have := hk.2
      push_cast at hv
      omega
    refine ⟨(h1.freed k).mpr hk2, ?_⟩
    have hp := h1.pay k
    rw [if_neg (by simp [window]; omega)] at hp
    simp only [payload] at hp
    cases hh : w.mem.slab k with
    | none => rfl
    | some n => rw [hh] at hp; simp at hp

/-- C6, amended, instance: publishing 1, 2, 3, 4. After the fourth cycle the chain is
4, 3; that cycle freed the node with id 2 (node 1), and the node with id 1
(node 0) was freed in the cycle that published 3. -/
theorem sliding_window_witness :
    ∃ w3 id3 w4 id4, rcu_writer 4 [true, true, true] = some (w3, id3) ∧
      rcu_writer 4 [true, true, true, true] = some (w4, id4) ∧
      chain_ids 4 w4.mem = some [some 4, some 3] ∧
      w4.trace = w3.trace ++ [.kmalloc (some 3), .set_id 3 4, .set_name 3, .list_add_rcu 3,
        .rcu_read_lock, .list_del_rcu 1, .rcu_read_unlock, .synchronize_rcu, .kfree 1] ∧
      Event.set_id 1 2 ∈ w3.trace ∧ Event.kfree 0 ∈ w3.trace := by
  obtain ⟨w3, id3, w4, id4, h3, _, h4, _, hids, ht, hs, _⟩ :=
    sliding_window 4 [true, true, true] 4 (by decide) (by decide) (by decide) (by decide)
  refine ⟨w3, id3, w4, id4, h3, h4, hids, ht, hs, ?_⟩
  have h5 : (rcu_writer 4 [true, true, true]).map (fun p => decide (Event.kfree 0 ∈ p.1.trace)) =
      some true := by decide
  rw [h3] at h5
  simpa using h5

end RcuDemo
